import Mathlib

/-!
Verification of the signal-tui message persistence layer and desktop import
pipeline (src/message_store.py, src/desktop_import.py, src/signal_client.py,
src/test_desktop_import.py).

Shallow embedding conventions:
* SQLite tables become Lean lists of row structures; SQL statements become
  list operations mirroring the exact WHERE/ORDER BY/LIMIT clauses.
* Python `datetime` timestamps are represented by their millisecond epoch
  integer (`int(ts.timestamp() * 1000)`), which is the only view the store
  ever takes of them.
* Python truthiness on `Optional[int]` / `str` arguments is modelled
  explicitly (`None` and `0` / `""` are falsy).
* Byte strings are `List Nat` (each element < 256 where it matters);
  hex strings are `List Char`.
-/

namespace SignalTui

/-- Attachment metadata as carried by `Message.attachments`
(`{contentType, filename, size}` dicts in the Python source). -/
structure Attachment where
  contentType : String
  filename : String
  size : Int
deriving DecidableEq, Repr

/-- `signal_client.Message` (src/signal_client.py:36-47).  `timestampMs` is
the millisecond epoch value of the `timestamp : datetime` field; `group_name`
is never read by the store and is omitted. -/
structure Message where
  sender : String
  sender_name : String
  body : String
  timestampMs : Int
  is_outgoing : Bool
  group_id : String
  attachments : List Attachment
  is_read : Bool
deriving DecidableEq, Repr

/-- A row of the `messages` table (src/message_store.py:226-240).  The
`attachments_json` column is represented structurally by the attachment list
it serializes; the autoincrement `id` column is never consulted by any
operation under study and is omitted. -/
structure MsgRow where
  conversationId : String
  source : String
  body : String
  sent_at : Int
  received_at : Int
  type : String
  hasAttachments : Bool
  attachments : List Attachment
  isRead : Bool
deriving DecidableEq, Repr

/-- A row of the `conversations` table (src/message_store.py:243-252). -/
structure ConvRow where
  id : String
  name : String
  type : String
  lastMessage : String
  lastMessageAt : Option Int
  unreadCount : Nat
deriving DecidableEq, Repr

/-- The two tables of the store touched by the operations under study. -/
structure Store where
  messages : List MsgRow
  conversations : List ConvRow
deriving DecidableEq, Repr

def emptyStore : Store := ⟨[], []⟩

/-- `conversation_id.startswith("+")` (src/message_store.py:409,493). -/
def starts_with_plus (s : String) : Bool :=
  match s.data with
  | [] => false
  | c :: _ => c == '+'

/-- `"outgoing" if message.is_outgoing else "incoming"`
(src/message_store.py:334,639). -/
def msg_type (m : Message) : String :=
  if m.is_outgoing then "outgoing" else "incoming"

/-- `message.body[:100] if message.body else "[Attachment]"`
(src/message_store.py:511,522; an empty body is falsy in Python).  Python
slices strings by code point, matching `List.take` on `String.data`. -/
def preview (b : String) : String :=
  if b = "" then "[Attachment]" else ⟨b.data.take 100⟩

/-- The `UNIQUE(conversationId, sent_at, source, body)` dedup key comparison
(src/message_store.py:238). -/
def sameKey (a b : MsgRow) : Bool :=
  a.conversationId == b.conversationId && a.sent_at == b.sent_at
    && a.source == b.source && a.body == b.body

/-- `INSERT OR IGNORE INTO messages` (src/message_store.py:339-353): the row
is appended unless a row with the same dedup key already exists. -/
def insertOrIgnore (msgs : List MsgRow) (row : MsgRow) : List MsgRow :=
  if msgs.any (fun r => sameKey r row) then msgs else msgs ++ [row]

/-- `SELECT * FROM conversations WHERE id = ?` fetching one row
(src/message_store.py:497). -/
def findConv (s : Store) (c : String) : Option ConvRow :=
  s.conversations.find? (fun r => r.id == c)

/-- `UPDATE conversations SET ... WHERE id = ?` (src/message_store.py:507). -/
def replaceConv (l : List ConvRow) (c : String) (new : ConvRow) : List ConvRow :=
  l.map (fun r => if r.id == c then new else r)

/-- The `UPDATE conversations SET lastMessage = ?, lastMessageAt = ?,
unreadCount = ?` record of `_update_conversation_on_message`
(src/message_store.py:500-511): `new_unread` counts the message only when it
is incoming and unread. -/
def updatedConv (existing : ConvRow) (m : Message) : ConvRow :=
  { existing with
      lastMessage := preview m.body
      lastMessageAt := some m.timestampMs
      unreadCount := existing.unreadCount +
        (if !m.is_outgoing && !m.is_read then 1 else 0) }

/-- The `INSERT INTO conversations` record of
`_update_conversation_on_message` (src/message_store.py:512-525). -/
def newConvRow (conversation_id : String) (m : Message) : ConvRow :=
  { id := conversation_id
    name := if m.sender_name == "" then conversation_id else m.sender_name
    type := if starts_with_plus conversation_id then "private" else "group"
    lastMessage := preview m.body
    lastMessageAt := some m.timestampMs
    unreadCount := if m.is_outgoing then 0 else 1 }

/-- `MessageStore._update_conversation_on_message`
(src/message_store.py:487-527): update the existing conversation row only
when `lastMessageAt` is NULL or `sent_at >= lastMessageAt`, else leave the
store untouched; create the row when absent. -/
def _update_conversation_on_message (s : Store) (conversation_id : String)
    (m : Message) : Store :=
  match findConv s conversation_id with
  | some existing =>
    if (match existing.lastMessageAt with
        | none => true
        | some v => decide (v ≤ m.timestampMs)) then
      { s with conversations :=
          replaceConv s.conversations conversation_id (updatedConv existing m) }
    else s
  | none =>
    { s with conversations := s.conversations ++ [newConvRow conversation_id m] }

/-- The row built by `MessageStore.save_message` (src/message_store.py:332-353);
`now` is `int(datetime.now().timestamp() * 1000)`. -/
def save_row (m : Message) (conversation_id : String) (now : Int) : MsgRow :=
  { conversationId := conversation_id
    source := m.sender
    body := m.body
    sent_at := m.timestampMs
    received_at := now
    type := msg_type m
    hasAttachments := !m.attachments.isEmpty
    attachments := m.attachments
    isRead := m.is_read || m.is_outgoing }

/-- `MessageStore.save_message` (src/message_store.py:318-361): insert-or-ignore
into `messages`, then unconditionally run the conversation update. -/
def save_message (s : Store) (m : Message) (conversation_id : String)
    (now : Int) : Store :=
  let s1 : Store := { s with
    messages := insertOrIgnore s.messages (save_row m conversation_id now) }
  _update_conversation_on_message s1 conversation_id m

/-- Descending `ORDER BY sent_at DESC` comparison used by `get_messages`. -/
def descBySent (a b : MsgRow) : Prop := b.sent_at ≤ a.sent_at

instance : DecidableRel descBySent := fun a b => Int.decLe b.sent_at a.sent_at

instance : IsTotal MsgRow descBySent :=
  ⟨fun a b => le_total b.sent_at a.sent_at⟩

instance : IsTrans MsgRow descBySent :=
  ⟨fun _ _ _ hab hbc => le_trans hbc hab⟩

/-- The row list produced by the `get_messages` query
(src/message_store.py:383-401): filter by conversation (and by
`sent_at < before_timestamp` when `before_timestamp` is truthy — Python's
`if before_timestamp:` treats both `None` and `0` as absent), sort by
`sent_at` descending, apply `LIMIT`, then reverse into chronological order. -/
def query_rows (s : Store) (conversation_id : String)
    (before_timestamp : Option Int) : List MsgRow :=
  match before_timestamp with
  | some b =>
    if b ≠ 0 then
      s.messages.filter
        (fun r => r.conversationId == conversation_id && decide (r.sent_at < b))
    else s.messages.filter (fun r => r.conversationId == conversation_id)
  | none => s.messages.filter (fun r => r.conversationId == conversation_id)

/-- Sort descending, apply `LIMIT`, reverse into chronological order. -/
def get_messages_rows (s : Store) (conversation_id : String) (limit : Nat)
    (before_timestamp : Option Int) : List MsgRow :=
  ((((query_rows s conversation_id before_timestamp).insertionSort
      descBySent).take limit).reverse)

/-- Reconstruction of a `Message` from a stored row
(src/message_store.py:403-412).  The timestamp is
`datetime.fromtimestamp(row["sent_at"] / 1000) if row["sent_at"] else
datetime.now()` (src/message_store.py:407): a falsy stored `sent_at`
(0 or NULL) is replaced by the current clock `now`. -/
def row_to_message (conversation_id : String) (now : Int) (r : MsgRow) : Message :=
  { sender := r.source
    sender_name := ""
    body := r.body
    timestampMs := if r.sent_at ≠ 0 then r.sent_at else now
    is_outgoing := r.type == "outgoing"
    group_id := if starts_with_plus conversation_id then "" else conversation_id
    attachments := r.attachments
    is_read := r.isRead }

/-- `MessageStore.get_messages` (src/message_store.py:363-415); `now` is the
clock read used for rows with a falsy `sent_at`. -/
def get_messages (s : Store) (conversation_id : String) (limit : Nat)
    (before_timestamp : Option Int) (now : Int) : List Message :=
  (get_messages_rows s conversation_id limit before_timestamp).map
    (row_to_message conversation_id now)

/-- `MessageStore.mark_messages_read` (src/message_store.py:417-432):
`UPDATE messages SET isRead = 1 WHERE conversationId = ? AND isRead = 0`
followed by `UPDATE conversations SET unreadCount = 0 WHERE id = ?`. -/
def mark_messages_read (s : Store) (conversation_id : String) : Store :=
  { messages := s.messages.map (fun r =>
      if r.conversationId == conversation_id && !r.isRead then
        { r with isRead := true } else r)
    conversations := s.conversations.map (fun cv =>
      if cv.id == conversation_id then { cv with unreadCount := 0 } else cv) }

/-- `MessageStore.get_unread_count` (src/message_store.py:434-442). -/
def get_unread_count (s : Store) (conversation_id : String) : Nat :=
  (s.messages.filter (fun r =>
    r.conversationId == conversation_id && !r.isRead && r.type == "incoming")).length

/-- The row built per pair by `MessageStore.bulk_insert_messages`
(src/message_store.py:636-657): `received_at` reuses `sent_at` and imported
rows are always marked read. -/
def bulk_row (conversation_id : String) (m : Message) : MsgRow :=
  { conversationId := conversation_id
    source := m.sender
    body := m.body
    sent_at := m.timestampMs
    received_at := m.timestampMs
    type := msg_type m
    hasAttachments := !m.attachments.isEmpty
    attachments := m.attachments
    isRead := true }

/-- One step of the `bulk_insert_messages` loop: insert-or-ignore, counting
rows actually inserted (`cursor.rowcount > 0`). -/
def bulk_step (acc : List MsgRow × Nat) (p : String × Message) :
    List MsgRow × Nat :=
  if acc.1.any (fun r => sameKey r (bulk_row p.1 p.2)) then acc
  else (acc.1 ++ [bulk_row p.1 p.2], acc.2 + 1)

/-- `MessageStore.bulk_insert_messages` (src/message_store.py:622-664):
returns the updated store and the number of rows inserted.  No conversation
aggregation is performed. -/
def bulk_insert_messages (s : Store) (pairs : List (String × Message)) :
    Store × Nat :=
  let res := pairs.foldl bulk_step (s.messages, 0)
  ({ s with messages := res.1 }, res.2)

/-- `MessageStore.ensure_conversation` (src/message_store.py:579-591). -/
def ensure_conversation (s : Store) (conversation_id : String) (name : String)
    (is_group : Bool) : Store :=
  match findConv s conversation_id with
  | some _ => s
  | none =>
    let conv_type := if is_group then "group" else "private"
    { s with conversations := s.conversations ++
        [{ id := conversation_id, name := name, type := conv_type,
           lastMessage := "", lastMessageAt := none, unreadCount := 0 }] }

/-- `MessageStore.update_conversation_from_messages`
(src/message_store.py:593-616): pick the most recent stored message of the
conversation and push it into the conversation row only where
`lastMessageAt IS NULL OR lastMessageAt < last_message_at`. -/
def update_conversation_from_messages (s : Store) (conversation_id : String) :
    Store :=
  let rows := s.messages.filter (fun r => r.conversationId == conversation_id)
  match (rows.insertionSort descBySent).head? with
  | none => s
  | some top =>
    let last_message := preview top.body
    let last_message_at := top.sent_at
    { s with conversations := s.conversations.map (fun cv =>
        if cv.id == conversation_id &&
            (match cv.lastMessageAt with
             | none => true
             | some v => decide (v < last_message_at)) then
          { cv with lastMessage := last_message,
                    lastMessageAt := some last_message_at }
        else cv) }

/-! ## SafeStorage codec (src/desktop_import.py:65-109 and the encryption
fixture src/test_desktop_import.py:15-38)

The PBKDF2 key derivation and the AES-128 block cipher are external library
calls (`cryptography.hazmat`); the embedding is parameterized over them:
`kdf password salt iterations length` models `PBKDF2HMAC(...).derive(password)`
and `enc`/`dec` model one AES block encryption/decryption under a key.  The
CBC chaining, version-tag dispatch, constants and (un)padding are the
repository's own code and are embedded concretely.  Plaintexts and passwords
are byte lists (the UTF-8 encode/decode at the boundary is the identity on
the byte level). -/

/-- A key-derivation function: password, salt, iterations, key length. -/
def Kdf : Type := List Nat → List Nat → Nat → Nat → List Nat

/-- A block-cipher primitive: key, 16-byte block to 16-byte block. -/
def BlockFn : Type := List Nat → List Nat → List Nat

/-- The fixed IV `b" " * 16` (src/desktop_import.py:97). -/
def cbcIV : List Nat := List.replicate 16 32

/-- The fixed salt `b"saltysalt"` (src/desktop_import.py:90). -/
def saltBytes : List Nat := [115, 97, 108, 116, 121, 115, 97, 108, 116]

/-- The 3-byte version tag `b"v10"`. -/
def vTag10 : List Nat := [118, 49, 48]

/-- The 3-byte version tag `b"v11"`. -/
def vTag11 : List Nat := [118, 49, 49]

/-- Byte-wise XOR of two equal-length blocks. -/
def xorBlock (a b : List Nat) : List Nat := List.zipWith Nat.xor a b

/-- Fuel-bounded block splitter; any fuel at least the byte count yields the
full 16-byte chunking (structural recursion keeps it kernel-computable). -/
def toBlocksFuel : Nat → List Nat → List (List Nat)
  | _, [] => []
  | 0, _ :: _ => []
  | Nat.succ fuel, x :: xs =>
    (x :: xs).take 16 :: toBlocksFuel fuel ((x :: xs).drop 16)

/-- Split a byte string into consecutive 16-byte blocks. -/
def toBlocks (l : List Nat) : List (List Nat) := toBlocksFuel l.length l

/-- CBC-mode encryption chaining over a block list. -/
def cbcEncryptBlocks (enc : BlockFn) (key prev : List Nat) :
    List (List Nat) → List (List Nat)
  | [] => []
  | b :: rest =>
    let c := enc key (xorBlock b prev)
    c :: cbcEncryptBlocks enc key c rest

/-- CBC-mode decryption chaining over a block list. -/
def cbcDecryptBlocks (dec : BlockFn) (key prev : List Nat) :
    List (List Nat) → List (List Nat)
  | [] => []
  | c :: rest => xorBlock (dec key c) prev :: cbcDecryptBlocks dec key c rest

/-- CBC decryption of a byte string (ciphertext assumed block-aligned). -/
def cbcDecryptBytes (dec : BlockFn) (key ct : List Nat) : List Nat :=
  (cbcDecryptBlocks dec key cbcIV (toBlocks ct)).flatten

/-- Lowercase hex digit for a nibble (`bytes.hex` output alphabet). -/
def hexDigitChar (n : Nat) : Char :=
  if n < 10 then Char.ofNat (48 + n)
  else if n < 16 then Char.ofNat (97 + (n - 10))
  else 'x'

/-- `bytes.hex()`: two lowercase hex digits per byte. -/
def hexEncode (bs : List Nat) : List Char :=
  (bs.map (fun b => [hexDigitChar (b / 16), hexDigitChar (b % 16)])).flatten

/-- Value of a hex digit, upper or lower case (`bytes.fromhex` alphabet),
computed from the character's code point. -/
def hexDigitVal (c : Char) : Option Nat :=
  if 48 ≤ c.toNat ∧ c.toNat ≤ 57 then some (c.toNat - 48)
  else if 97 ≤ c.toNat ∧ c.toNat ≤ 102 then some (c.toNat - 97 + 10)
  else if 65 ≤ c.toNat ∧ c.toNat ≤ 70 then some (c.toNat - 65 + 10)
  else none

/-- `bytes.fromhex`: pairs of hex digits to bytes; fails (`ValueError`) on an
odd-length or non-hex input.  (Python additionally skips ASCII spaces; the
inputs under study never contain them.) -/
def hexDecode : List Char → Option (List Nat)
  | [] => some []
  | [_] => none
  | c1 :: c2 :: rest =>
    match hexDigitVal c1, hexDigitVal c2, hexDecode rest with
    | some hi, some lo, some bs => some ((hi * 16 + lo) :: bs)
    | _, _, _ => none

/-- Python's `l[:-k]` on a byte string: empty for `k = 0` (since `-0 == 0`)
and for `k ≥ len`, else the first `len - k` bytes
(src/desktop_import.py:107). -/
def pySliceDropLast (l : List Nat) (k : Nat) : List Nat :=
  if k = 0 then [] else l.take (l.length - k)

/-- Failure modes of `_decrypt_safe_storage`: the explicit
`DesktopImportError("Unknown encryption version: ...")` raise, plus the
library/runtime errors of `bytes.fromhex` (ValueError), non-block-aligned
CBC input (ValueError from `decryptor.finalize`), `decrypted[-1]` on an
empty result (IndexError), and `decrypted.decode("utf-8")` on a non-UTF-8
result (UnicodeDecodeError).  There is no padding-validation failure mode. -/
inductive DecryptError where
  | unsupportedVersion (tag : List Nat)
  | invalidHex
  | notBlockAligned
  | indexErrorOnEmpty
  | unicodeDecodeError
deriving DecidableEq, Repr

/-- A UTF-8 continuation byte (`0x80`–`0xBF`). -/
def isCont (b : Nat) : Bool := 128 ≤ b && b ≤ 191

/-- Strict UTF-8 validity of a byte string, as enforced by Python's
`bytes.decode("utf-8")` (RFC 3629: no overlong forms, no surrogates,
nothing above U+10FFFF). -/
def isValidUtf8 : List Nat → Bool
  | [] => true
  | b :: rest =>
    if b ≤ 127 then isValidUtf8 rest
    else if 194 ≤ b && b ≤ 223 then
      match rest with
      | c1 :: rest1 => isCont c1 && isValidUtf8 rest1
      | [] => false
    else if 224 ≤ b && b ≤ 239 then
      match rest with
      | c1 :: c2 :: rest2 =>
        (if b = 224 then 160 ≤ c1 && c1 ≤ 191
         else if b = 237 then 128 ≤ c1 && c1 ≤ 159
         else isCont c1) && isCont c2 && isValidUtf8 rest2
      | _ => false
    else if 240 ≤ b && b ≤ 244 then
      match rest with
      | c1 :: c2 :: c3 :: rest3 =>
        (if b = 240 then 144 ≤ c1 && c1 ≤ 191
         else if b = 244 then 128 ≤ c1 && c1 ≤ 143
         else isCont c1) && isCont c2 && isCont c3 && isValidUtf8 rest3
      | _ => false
    else false

/-- `SignalDesktopImporter._decrypt_safe_storage`
(src/desktop_import.py:65-109), parameterized over the PBKDF2 and AES-block
primitives.  The final `decrypted.decode("utf-8")` is modelled as a strict
UTF-8 validity check returning the (identical) UTF-8 bytes of the decoded
string, or the UnicodeDecodeError failure. -/
def _decrypt_safe_storage (kdf : Kdf) (dec : BlockFn)
    (encrypted_hex : List Char) (password : List Nat) :
    Except DecryptError (List Nat) :=
  match hexDecode encrypted_hex with
  | none => .error .invalidHex
  | some encrypted_data =>
    let tag := encrypted_data.take 3
    let iterationsOpt : Option Nat :=
      if tag = vTag10 then some 1003
      else if tag = vTag11 then some 1
      else none
    match iterationsOpt with
    | none => .error (.unsupportedVersion tag)
    | some iterations =>
      let derived_key := kdf password saltBytes iterations 16
      let ciphertext := encrypted_data.drop 3
      if ciphertext.length % 16 ≠ 0 then .error .notBlockAligned
      else
        let decrypted := cbcDecryptBytes dec derived_key ciphertext
        match decrypted.getLast? with
        | none => .error .indexErrorOnEmpty
        | some padding_len =>
          if isValidUtf8 (pySliceDropLast decrypted padding_len) then
            .ok (pySliceDropLast decrypted padding_len)
          else .error .unicodeDecodeError

/-- `encrypt_for_safe_storage` (src/test_desktop_import.py:15-38), the
repository's own inverse fixture: PKCS#7-pad, CBC-encrypt with the same
derived key and IV, prepend the version tag, hex-encode. -/
def encrypt_for_safe_storage (kdf : Kdf) (enc : BlockFn)
    (plaintext password : List Nat) (version : List Nat) : List Char :=
  let iterations := if version = vTag10 then 1003 else 1
  let derived_key := kdf password saltBytes iterations 16
  let padding_len := 16 - plaintext.length % 16
  let padded := plaintext ++ List.replicate padding_len padding_len
  let ciphertext := (cbcEncryptBlocks enc derived_key cbcIV (toBlocks padded)).flatten
  hexEncode (version ++ ciphertext)

/-! ## KeyVault (src/message_store.py:32-145)

The macOS `security` subprocess is the environment: the credential-store
entry is modelled as the optional byte string it holds (after the base64
transport decoding, which round-trips), and `secrets.token_hex(32)` as 32
externally supplied random bytes.  Whether `security add-generic-password`
succeeds is a boolean of the environment. -/

/-- `KeychainError` (src/message_store.py:27-29). -/
inductive KeychainError where
  | storeFailed
deriving DecidableEq, Repr

/-- `_get_key_from_keychain` (src/message_store.py:32-61): the stored bytes,
hex-encoded; `none` when the entry is absent or the subprocess failed. -/
def _get_key_from_keychain (entry : Option (List Nat)) : Option (List Char) :=
  entry.map hexEncode

/-- `_generate_encryption_key` (src/message_store.py:110-117):
`secrets.token_hex(32)` given the 32 random bytes it draws. -/
def _generate_encryption_key (fresh : List Nat) : List Char :=
  hexEncode fresh

/-- `get_or_create_encryption_key` (src/message_store.py:120-145).  Python's
`if key:` also treats an empty retrieved string as absent. -/
def get_or_create_encryption_key (entry : Option (List Nat))
    (fresh : List Nat) (store_ok : Bool) : Except KeychainError (List Char) :=
  let generate : Except KeychainError (List Char) :=
    if store_ok then .ok (_generate_encryption_key fresh)
    else .error .storeFailed
  match _get_key_from_keychain entry with
  | some key => if key.isEmpty then generate else .ok key
  | none => generate

/-! ## Desktop import loop (src/desktop_import.py:412-484)

`import_all` is modelled as a trace-producing fold over the enumerated
conversations.  The foreign-database extraction (`get_conversations`,
`get_messages_for_conversation`) and the row-to-`Message` mapping are the
enumeration's input: each conversation arrives with its display name, id and
already-mapped message list.  The trace records the externally observable
steps in program order. -/

/-- A conversation as returned by `get_conversations`
(src/desktop_import.py:280-326). -/
structure DesktopConv where
  id : String
  name : String
  is_group : Bool
deriving DecidableEq, Repr

/-- Observable events of one `import_all` run. -/
inductive ImportEvent where
  | progress (name : String) (current total : Nat)
  | bulkInsert (conversation_id : String) (inserted : Nat)
  | ensure (conversation_id name : String) (is_group : Bool)
  | aggregate (conversation_id : String)
deriving DecidableEq, Repr

/-- The per-conversation body of the `import_all` loop after the progress
callback (src/desktop_import.py:438-482): skip empty batches, else bulk
insert, ensure the conversation, then run the one-shot aggregation pass. -/
def processConv (store : Store) (conv : DesktopConv) (msgs : List Message) :
    Store × List ImportEvent × Nat :=
  if msgs.isEmpty then (store, [], 0)
  else
    let pairs := msgs.map (fun m => (conv.id, m))
    let res := bulk_insert_messages store pairs
    let s2 := ensure_conversation res.1 conv.id conv.name conv.is_group
    let s3 := update_conversation_from_messages s2 conv.id
    (s3, [ImportEvent.bulkInsert conv.id res.2,
          ImportEvent.ensure conv.id conv.name conv.is_group,
          ImportEvent.aggregate conv.id], res.2)

/-- The `for i, conv in enumerate(conversations)` loop of `import_all`
(src/desktop_import.py:434-482), from loop index `i`: the progress callback
fires first with `(conv["name"], i + 1, total_convs)`, then the conversation
is processed. -/
def importFrom (store : Store) (total i : Nat) :
    List (DesktopConv × List Message) → Store × List ImportEvent × Nat
  | [] => (store, [], 0)
  | (conv, msgs) :: rest =>
    let ev0 := ImportEvent.progress conv.name (i + 1) total
    let step := processConv store conv msgs
    let tail := importFrom step.1 total (i + 1) rest
    (tail.1, ev0 :: step.2.1 ++ tail.2.1, step.2.2 + tail.2.2)

/-- `SignalDesktopImporter.import_all` (src/desktop_import.py:412-484):
returns the final store, the event trace, and the
`(conversations_imported, messages_imported)` pair. -/
def import_all (store : Store) (data : List (DesktopConv × List Message)) :
    Store × List ImportEvent × Nat × Nat :=
  let res := importFrom store data.length 0 data
  (res.1, res.2.1, data.length, res.2.2)

/-! ## Basic lemmas about the store operations -/

theorem update_conv_messages (s : Store) (c : String) (m : Message) :
    (_update_conversation_on_message s c m).messages = s.messages := by
  unfold _update_conversation_on_message
  cases findConv s c with
  | none => rfl
  | some existing =>
    dsimp only
    split <;> rfl

theorem save_message_messages (s : Store) (m : Message) (c : String) (now : Int) :
    (save_message s m c now).messages
      = insertOrIgnore s.messages (save_row m c now) := by
  unfold save_message
  rw [update_conv_messages]

theorem sameKey_refl (r : MsgRow) : sameKey r r = true := by
  simp [sameKey]

theorem sameKey_fields {a b : MsgRow} (h : sameKey a b = true) :
    a.conversationId = b.conversationId ∧ a.sent_at = b.sent_at
      ∧ a.source = b.source ∧ a.body = b.body := by
  simp only [sameKey, Bool.and_eq_true, beq_iff_eq] at h
  tauto

theorem sameKey_of_fields {a b : MsgRow} (h1 : a.conversationId = b.conversationId)
    (h2 : a.sent_at = b.sent_at) (h3 : a.source = b.source) (h4 : a.body = b.body) :
    sameKey a b = true := by
  simp [sameKey, h1, h2, h3, h4]

theorem sameKey_trans_right {a b c : MsgRow} (hac : sameKey a c = true)
    (hbc : sameKey b c = true) : sameKey a b = true := by
  obtain ⟨h1, h2, h3, h4⟩ := sameKey_fields hac
  obtain ⟨g1, g2, g3, g4⟩ := sameKey_fields hbc
  exact sameKey_of_fields (h1.trans g1.symm) (h2.trans g2.symm)
    (h3.trans g3.symm) (h4.trans g4.symm)

theorem save_row_key_now (r : MsgRow) (m : Message) (c : String) (now now' : Int) :
    sameKey r (save_row m c now) = sameKey r (save_row m c now') := rfl

theorem insertOrIgnore_hasKey (msgs : List MsgRow) (row : MsgRow) :
    (insertOrIgnore msgs row).any (fun r => sameKey r row) = true := by
  unfold insertOrIgnore
  split
  · assumption
  · simp [List.any_append, sameKey_refl]

theorem insertOrIgnore_of_hasKey {msgs : List MsgRow} {row : MsgRow}
    (h : msgs.any (fun r => sameKey r row) = true) :
    insertOrIgnore msgs row = msgs := by
  unfold insertOrIgnore
  simp [h]

theorem insertOrIgnore_of_not_hasKey {msgs : List MsgRow} {row : MsgRow}
    (h : msgs.any (fun r => sameKey r row) = false) :
    insertOrIgnore msgs row = msgs ++ [row] := by
  unfold insertOrIgnore
  simp [h]

/-- Number of stored rows sharing the dedup key of `row` (the quantity the
`UNIQUE(conversationId, sent_at, source, body)` constraint governs). -/
def dupCount (msgs : List MsgRow) (row : MsgRow) : Nat :=
  (msgs.filter (fun r => sameKey r row)).length

/-- The store invariant maintained by SQLite's UNIQUE constraint: no two
stored rows share a dedup key. -/
def NodupKeys (msgs : List MsgRow) : Prop :=
  msgs.Pairwise (fun a b => sameKey a b = false)

theorem dupCount_le_one {msgs : List MsgRow} (row : MsgRow)
    (h : NodupKeys msgs) : dupCount msgs row ≤ 1 := by
  induction msgs with
  | nil => simp [dupCount]
  | cons a l ih =>
    obtain ⟨ha, hl⟩ := List.pairwise_cons.mp h
    unfold dupCount
    by_cases hk : sameKey a row = true
    · have hnil : l.filter (fun r => sameKey r row) = [] := by
        rw [List.filter_eq_nil_iff]
        intro b hb hbk
        have := sameKey_trans_right hk hbk
        rw [ha b hb] at this
        exact Bool.false_ne_true this
      simp [List.filter_cons, hk, hnil]
    · have ih2 := ih hl
      unfold dupCount at ih2
      simp [List.filter_cons, hk, ih2]

theorem dupCount_pos_of_hasKey {msgs : List MsgRow} {row : MsgRow}
    (h : msgs.any (fun r => sameKey r row) = true) : 1 ≤ dupCount msgs row := by
  rw [List.any_eq_true] at h
  obtain ⟨r, hr, hk⟩ := h
  unfold dupCount
  have hmem : r ∈ msgs.filter (fun r => sameKey r row) := List.mem_filter.mpr ⟨hr, hk⟩
  exact List.length_pos.mpr (List.ne_nil_of_mem hmem)

theorem dupCount_insertOrIgnore (msgs : List MsgRow) (row : MsgRow)
    (h : NodupKeys msgs) : dupCount (insertOrIgnore msgs row) row = 1 := by
  by_cases hk : msgs.any (fun r => sameKey r row) = true
  · rw [insertOrIgnore_of_hasKey hk]
    have h1 := dupCount_le_one row h
    have h2 := dupCount_pos_of_hasKey hk
    omega
  · rw [insertOrIgnore_of_not_hasKey (Bool.eq_false_iff.mpr hk)]
    unfold dupCount
    rw [List.filter_append]
    have h0 : msgs.filter (fun r => sameKey r row) = [] := by
      rw [List.filter_eq_nil_iff]
      intro b hb hbk
      exact hk (List.any_eq_true.mpr ⟨b, hb, hbk⟩)
    simp [h0, sameKey_refl]

theorem bulk_step_monotone (acc : List MsgRow × Nat) (p : String × Message)
    (q : MsgRow → Bool) (h : acc.1.any q = true) : (bulk_step acc p).1.any q = true := by
  unfold bulk_step
  split
  · exact h
  · simp [List.any_append, h]

theorem bulk_foldl_monotone (pairs : List (String × Message))
    (acc : List MsgRow × Nat) (q : MsgRow → Bool) (h : acc.1.any q = true) :
    (pairs.foldl bulk_step acc).1.any q = true := by
  induction pairs generalizing acc with
  | nil => exact h
  | cons p rest ih => exact ih _ (bulk_step_monotone acc p q h)

theorem bulk_foldl_hasKeys (pairs : List (String × Message))
    (acc : List MsgRow × Nat) :
    ∀ p ∈ pairs, (pairs.foldl bulk_step acc).1.any
      (fun r => sameKey r (bulk_row p.1 p.2)) = true := by
  induction pairs generalizing acc with
  | nil => intro p hp; cases hp
  | cons q rest ih =>
    intro p hp
    rcases List.mem_cons.mp hp with h | h
    · subst h
      rw [List.foldl_cons]
      apply bulk_foldl_monotone
      unfold bulk_step
      split
      · assumption
      · simp [List.any_append, sameKey_refl]
    · exact ih (bulk_step acc q) p h

theorem bulk_foldl_noop (pairs : List (String × Message))
    (msgs : List MsgRow) (n : Nat)
    (h : ∀ p ∈ pairs, msgs.any (fun r => sameKey r (bulk_row p.1 p.2)) = true) :
    pairs.foldl bulk_step (msgs, n) = (msgs, n) := by
  induction pairs with
  | nil => rfl
  | cons q rest ih =>
    rw [List.foldl_cons]
    have hstep : bulk_step (msgs, n) q = (msgs, n) := by
      unfold bulk_step
      simp [h q (List.mem_cons_self q rest)]
    rw [hstep]
    exact ih (fun p hp => h p (List.mem_cons_of_mem q hp))

theorem bulk_insert_twice (s : Store) (pairs : List (String × Message)) :
    bulk_insert_messages (bulk_insert_messages s pairs).1 pairs
      = ((bulk_insert_messages s pairs).1, 0) := by
  unfold bulk_insert_messages
  dsimp only
  have hnoop : pairs.foldl bulk_step ((pairs.foldl bulk_step (s.messages, 0)).1, 0)
      = ((pairs.foldl bulk_step (s.messages, 0)).1, 0) := by
    apply bulk_foldl_noop
    intro p hp
    exact bulk_foldl_hasKeys pairs (s.messages, 0) p hp
  rw [hnoop]

/-- Claim C1 — Insertion is deduplicating and idempotent: saving the same
message twice via `save_message` leaves exactly one stored row with its dedup
key and the second save does not change the messages table; a second
identical `bulk_insert_messages` run inserts 0 rows and leaves the store
unchanged.  (`NodupKeys` is the UNIQUE-constraint invariant of the messages
table; duplicate handling is `INSERT OR IGNORE`, which has no error path.) -/
theorem insert_dedup_idempotent :
    (∀ (s : Store) (m : Message) (c : String) (now now' : Int),
      NodupKeys s.messages →
      (save_message (save_message s m c now) m c now' ).messages
          = (save_message s m c now).messages
        ∧ dupCount (save_message (save_message s m c now) m c now' ).messages
            (save_row m c now) = 1)
    ∧ (∀ (s : Store) (pairs : List (String × Message)),
        bulk_insert_messages (bulk_insert_messages s pairs).1 pairs
          = ((bulk_insert_messages s pairs).1, 0)) := by
  constructor
  · intro s m c now now' hnodup
    have hmsgs1 : (save_message s m c now).messages
        = insertOrIgnore s.messages (save_row m c now) := save_message_messages ..
    have hkey : (save_message s m c now).messages.any
        (fun r => sameKey r (save_row m c now' )) = true := by
      rw [hmsgs1]
      have := insertOrIgnore_hasKey s.messages (save_row m c now)
      simpa [save_row_key_now _ m c now' now] using this
    have hmsgs2 : (save_message (save_message s m c now) m c now' ).messages
        = (save_message s m c now).messages := by
      rw [save_message_messages, insertOrIgnore_of_hasKey hkey]
    refine ⟨hmsgs2, ?_⟩
    rw [hmsgs2, hmsgs1]
    exact dupCount_insertOrIgnore s.messages (save_row m c now) hnodup
  · intro s pairs
    exact bulk_insert_twice s pairs

/-! ## Concrete fixtures for witnesses and counterexamples -/

/-- An incoming, unread direct message (a concrete `Message` value). -/
def exMsg1 : Message :=
  { sender := "+15550001", sender_name := "Alice", body := "hi"
    timestampMs := 1000, is_outgoing := false, group_id := ""
    attachments := [], is_read := false }

/-- A second incoming, unread message with a later timestamp. -/
def exMsg2 : Message :=
  { sender := "+15550001", sender_name := "Alice", body := "there"
    timestampMs := 2000, is_outgoing := false, group_id := ""
    attachments := [], is_read := false }

/-- A third incoming, unread message with a still later timestamp. -/
def exMsg3 : Message :=
  { sender := "+15550001", sender_name := "Alice", body := "again"
    timestampMs := 3000, is_outgoing := false, group_id := ""
    attachments := [], is_read := false }

/-- Witness for `insert_dedup_idempotent` at a concrete store and message. -/
theorem insert_dedup_idempotent_witness :
    NodupKeys (emptyStore : Store).messages
    ∧ ((save_message (save_message emptyStore exMsg1 "+15550001" 5) exMsg1
          "+15550001" 7).messages
        = (save_message emptyStore exMsg1 "+15550001" 5).messages
      ∧ dupCount (save_message (save_message emptyStore exMsg1 "+15550001" 5)
            exMsg1 "+15550001" 7).messages (save_row exMsg1 "+15550001" 5) = 1)
    ∧ bulk_insert_messages
        (bulk_insert_messages emptyStore [("+15550001", exMsg1)]).1
        [("+15550001", exMsg1)]
      = ((bulk_insert_messages emptyStore [("+15550001", exMsg1)]).1, 0) := by
  have hnodup : NodupKeys (emptyStore : Store).messages := List.Pairwise.nil
  exact ⟨hnodup, insert_dedup_idempotent.1 emptyStore exMsg1 "+15550001" 5 7 hnodup,
    insert_dedup_idempotent.2 emptyStore [("+15550001", exMsg1)]⟩

/-! ## Lemmas about conversation-row lookup under the update operations -/

theorem find?_update_self (l : List ConvRow) (c : String) (f : ConvRow → ConvRow)
    (hf : ∀ cv : ConvRow, cv.id = c → (f cv).id = c) :
    (l.map (fun cv => if cv.id == c then f cv else cv)).find? (fun r => r.id == c)
      = (l.find? (fun r => r.id == c)).map f := by
  induction l with
  | nil => rfl
  | cons a l ih =>
    simp only [List.map_cons]
    by_cases h : (a.id == c) = true
    · have hid : a.id = c := beq_iff_eq.mp h
      have hfa : ((f a).id == c) = true := beq_iff_eq.mpr (hf a hid)
      rw [if_pos h, List.find?_cons, List.find?_cons, hfa, h]
      rfl
    · have hb : (a.id == c) = false := Bool.eq_false_iff.mpr h
      rw [if_neg h, List.find?_cons, List.find?_cons, hb]
      exact ih

theorem find?_update_other (l : List ConvRow) (c c' : String) (f : ConvRow → ConvRow)
    (hne : c' ≠ c) (hf : ∀ cv : ConvRow, cv.id = c → (f cv).id = c) :
    (l.map (fun cv => if cv.id == c then f cv else cv)).find? (fun r => r.id == c')
      = l.find? (fun r => r.id == c') := by
  induction l with
  | nil => rfl
  | cons a l ih =>
    simp only [List.map_cons]
    by_cases h : (a.id == c) = true
    · have hid : a.id = c := beq_iff_eq.mp h
      have h1 : ((f a).id == c') = false := by
        simp only [beq_eq_false_iff_ne, ne_eq, hf a hid]
        exact fun e => hne e.symm
      have h2 : (a.id == c') = false := by
        simp only [beq_eq_false_iff_ne, ne_eq, hid]
        exact fun e => hne e.symm
      rw [if_pos h, List.find?_cons, List.find?_cons, h1, h2]
      exact ih
    · have hb : (a.id == c) = false := Bool.eq_false_iff.mpr h
      cases hp : (a.id == c') with
      | true => rw [if_neg h, List.find?_cons, List.find?_cons, hp]
      | false =>
        rw [if_neg h, List.find?_cons, List.find?_cons, hp]
        exact ih

theorem findConv_msgs_irrel (s : Store) (msgs : List MsgRow) (c : String) :
    findConv { s with messages := msgs } c = findConv s c := rfl

theorem update_conv_of_apply {s : Store} {c : String} {m : Message} {cr : ConvRow}
    (hfind : findConv s c = some cr)
    (hcond : (match cr.lastMessageAt with
              | none => true
              | some v => decide (v ≤ m.timestampMs)) = true) :
    _update_conversation_on_message s c m
      = { s with conversations :=
            replaceConv s.conversations c (updatedConv cr m) } := by
  unfold _update_conversation_on_message
  rw [hfind]
  simp [hcond]

theorem update_conv_of_skip {s : Store} {c : String} {m : Message} {cr : ConvRow}
    (hfind : findConv s c = some cr)
    (hcond : (match cr.lastMessageAt with
              | none => true
              | some v => decide (v ≤ m.timestampMs)) = false) :
    _update_conversation_on_message s c m = s := by
  unfold _update_conversation_on_message
  rw [hfind]
  simp [hcond]

theorem update_conv_of_insert {s : Store} {c : String} {m : Message}
    (hfind : findConv s c = none) :
    _update_conversation_on_message s c m
      = { s with conversations := s.conversations ++ [newConvRow c m] } := by
  unfold _update_conversation_on_message
  rw [hfind]

theorem findConv_id {s : Store} {c : String} {cr : ConvRow}
    (hfind : findConv s c = some cr) : cr.id = c := by
  have h' : s.conversations.find? (fun r => r.id == c) = some cr := hfind
  exact beq_iff_eq.mp (@List.find?_some _ (fun r => r.id == c) cr s.conversations h')

theorem findConv_update_apply {s : Store} {c : String} {m : Message} {cr : ConvRow}
    (hfind : findConv s c = some cr)
    (hcond : (match cr.lastMessageAt with
              | none => true
              | some v => decide (v ≤ m.timestampMs)) = true) :
    findConv (_update_conversation_on_message s c m) c
      = some (updatedConv cr m) := by
  rw [update_conv_of_apply hfind hcond]
  show (replaceConv s.conversations c (updatedConv cr m)).find?
    (fun r => r.id == c) = _
  unfold replaceConv
  rw [find?_update_self _ c _ (fun cv _ => by
    show (updatedConv cr m).id = c
    simpa [updatedConv] using findConv_id hfind)]
  rw [show s.conversations.find? (fun r => r.id == c) = some cr from hfind]
  rfl

theorem findConv_update_insert {s : Store} {c : String} {m : Message}
    (hfind : findConv s c = none) :
    findConv (_update_conversation_on_message s c m) c
      = some (newConvRow c m) := by
  rw [update_conv_of_insert hfind]
  show (s.conversations ++ [newConvRow c m]).find? (fun r => r.id == c) = _
  rw [List.find?_append,
    show s.conversations.find? (fun r => r.id == c) = none from hfind]
  simp [newConvRow]

theorem findConv_update_other {s : Store} {c c' : String} {m : Message}
    (hne : c' ≠ c) :
    findConv (_update_conversation_on_message s c m) c' = findConv s c' := by
  unfold _update_conversation_on_message
  cases hfind : findConv s c with
  | some cr =>
    dsimp only
    split
    · show (replaceConv s.conversations c (updatedConv cr m)).find?
        (fun r => r.id == c') = _
      unfold replaceConv
      rw [find?_update_other _ c c' _ hne (fun cv _ => by
        show (updatedConv cr m).id = c
        simpa [updatedConv] using findConv_id hfind)]
      rfl
    · rfl
  | none =>
    show (s.conversations ++ [newConvRow c m]).find? (fun r => r.id == c') = _
    rw [List.find?_append]
    have hnew : ([newConvRow c m].find? (fun r => r.id == c')) = none := by
      have hb : ((newConvRow c m).id == c') = false := by
        simp only [newConvRow, beq_eq_false_iff_ne, ne_eq]
        exact fun e => hne e.symm
      simp [List.find?_cons, hb]
    rw [hnew]
    have hrhs : findConv s c' = s.conversations.find? (fun r => r.id == c') := rfl
    rw [hrhs]
    cases s.conversations.find? (fun r => r.id == c') <;> rfl

theorem save_message_eq_update_of_dup {s : Store} {m : Message} {c : String}
    {now : Int} (h : s.messages.any (fun r => sameKey r (save_row m c now)) = true) :
    save_message s m c now = _update_conversation_on_message s c m := by
  unfold save_message
  rw [insertOrIgnore_of_hasKey h]

/-- Counterexample to claim C5 as stated: re-saving an already-stored
incoming, unread message leaves the messages table unchanged but increments
the conversation's `unread_count` from 1 to 2 — the store state is not
unchanged. -/
theorem duplicate_save_not_noop_counterexample :
    (save_message (save_message emptyStore exMsg1 "+15550001" 0) exMsg1
        "+15550001" 0).messages
      = (save_message emptyStore exMsg1 "+15550001" 0).messages
    ∧ (findConv (save_message emptyStore exMsg1 "+15550001" 0)
        "+15550001").map ConvRow.unreadCount = some 1
    ∧ (findConv (save_message (save_message emptyStore exMsg1 "+15550001" 0)
        exMsg1 "+15550001" 0) "+15550001").map ConvRow.unreadCount = some 2 := by
  exact ⟨rfl, rfl, rfl⟩

/-- Claim C5, amended — a duplicate `save_message` inserts no message row,
but the conversation-aggregation update still runs: the call equals a bare
`_update_conversation_on_message`, so when the duplicate's `sent_at` is ≥ the
stored `last_message_at` the preview/timestamp are rewritten and, for an
incoming unread message, `unread_count` is incremented. -/
theorem duplicate_save_effect :
    (∀ (s : Store) (m : Message) (c : String) (now : Int),
      s.messages.any (fun r => sameKey r (save_row m c now)) = true →
      (save_message s m c now).messages = s.messages
        ∧ save_message s m c now = _update_conversation_on_message s c m)
    ∧ (∀ (s : Store) (m : Message) (c : String) (now : Int) (cr : ConvRow) (v : Int),
        s.messages.any (fun r => sameKey r (save_row m c now)) = true →
        findConv s c = some cr → cr.lastMessageAt = some v → v ≤ m.timestampMs →
        m.is_outgoing = false → m.is_read = false →
        findConv (save_message s m c now) c
          = some { cr with lastMessage := preview m.body,
                           lastMessageAt := some m.timestampMs,
                           unreadCount := cr.unreadCount + 1 }) := by
  constructor
  · intro s m c now h
    refine ⟨?_, save_message_eq_update_of_dup h⟩
    rw [save_message_messages, insertOrIgnore_of_hasKey h]
  · intro s m c now cr v h hfind hlast hle hout hread
    rw [save_message_eq_update_of_dup h]
    have hcond : (match cr.lastMessageAt with
        | none => true
        | some w => decide (w ≤ m.timestampMs)) = true := by
      rw [hlast]
      simpa using hle
    rw [findConv_update_apply hfind hcond]
    simp [updatedConv, hout, hread]

/-- Witness for `duplicate_save_effect` at a concrete duplicate save. -/
theorem duplicate_save_effect_witness :
    ((save_message (save_message emptyStore exMsg1 "+15550001" 0) exMsg1
        "+15550001" 3).messages
      = (save_message emptyStore exMsg1 "+15550001" 0).messages)
    ∧ findConv (save_message (save_message emptyStore exMsg1 "+15550001" 0)
        exMsg1 "+15550001" 3) "+15550001"
      = some { (findConv (save_message emptyStore exMsg1 "+15550001" 0)
                  "+15550001").get (by decide) with
               lastMessage := preview exMsg1.body,
               lastMessageAt := some exMsg1.timestampMs,
               unreadCount := ((findConv (save_message emptyStore exMsg1
                  "+15550001" 0) "+15550001").get (by decide)).unreadCount + 1 } := by
  constructor
  · exact (duplicate_save_effect.1 (save_message emptyStore exMsg1 "+15550001" 0)
      exMsg1 "+15550001" 3 (by decide)).1
  · exact duplicate_save_effect.2 (save_message emptyStore exMsg1 "+15550001" 0)
      exMsg1 "+15550001" 3 _ 1000 (by decide) rfl rfl (by decide) rfl rfl

/-! ## Well-formedness of stored message rows

Every write path of the store (src/message_store.py:339-353 and 643-657)
stores `type` as either `"incoming"` or `"outgoing"` and stores outgoing
rows with `isRead = 1` (`1 if message.is_read or message.is_outgoing else 0`,
or the constant `1` on the bulk path), so these facts hold of every
reachable store. -/

/-- Row well-formedness maintained by all write paths. -/
def RowWF (r : MsgRow) : Prop :=
  (r.type = "incoming" ∨ r.type = "outgoing") ∧ (r.type = "outgoing" → r.isRead = true)

instance : DecidablePred RowWF := fun r => by
  unfold RowWF
  infer_instance

/-- Store well-formedness: all stored message rows are well-formed. -/
def StoreWF (s : Store) : Prop := ∀ r ∈ s.messages, RowWF r

instance : DecidablePred StoreWF := fun s => by
  unfold StoreWF
  infer_instance

theorem rowWF_save_row (m : Message) (c : String) (now : Int) :
    RowWF (save_row m c now) := by
  unfold RowWF save_row msg_type
  cases m.is_outgoing <;> simp

theorem rowWF_bulk_row (c : String) (m : Message) : RowWF (bulk_row c m) := by
  unfold RowWF bulk_row msg_type
  cases m.is_outgoing <;> simp

theorem storeWF_save (s : Store) (m : Message) (c : String) (now : Int)
    (h : StoreWF s) : StoreWF (save_message s m c now) := by
  intro r hr
  rw [save_message_messages] at hr
  unfold insertOrIgnore at hr
  split at hr
  · exact h r hr
  · rcases List.mem_append.mp hr with h1 | h1
    · exact h r h1
    · rw [List.mem_singleton.mp h1]
      exact rowWF_save_row m c now

theorem storeWF_bulk_foldl (pairs : List (String × Message))
    (msgs : List MsgRow) (n : Nat) (h : ∀ r ∈ msgs, RowWF r) :
    ∀ r ∈ (pairs.foldl bulk_step (msgs, n)).1, RowWF r := by
  induction pairs generalizing msgs n with
  | nil => exact h
  | cons p rest ih =>
    rw [List.foldl_cons]
    unfold bulk_step
    split
    · exact ih msgs n h
    · apply ih
      intro r hr
      rcases List.mem_append.mp hr with h1 | h1
      · exact h r h1
      · rw [List.mem_singleton.mp h1]
        exact rowWF_bulk_row p.1 p.2

theorem storeWF_bulk (s : Store) (pairs : List (String × Message))
    (h : StoreWF s) : StoreWF (bulk_insert_messages s pairs).1 := by
  intro r hr
  exact storeWF_bulk_foldl pairs s.messages 0 h r hr

theorem storeWF_mark_read (s : Store) (c : String) (h : StoreWF s) :
    StoreWF (mark_messages_read s c) := by
  intro r hr
  unfold mark_messages_read at hr
  simp only [List.mem_map] at hr
  obtain ⟨r0, hr0, hr0eq⟩ := hr
  obtain ⟨ht, hread⟩ := h r0 hr0
  subst hr0eq
  split
  · exact ⟨ht, fun _ => rfl⟩
  · exact ⟨ht, hread⟩

/-- Claim C6 — `mark_messages_read` flips exactly the unread incoming
messages of the conversation (on well-formed stores, where outgoing rows are
already read, so only unread incoming rows match the
`WHERE conversationId = ? AND isRead = 0` clause), leaves other
conversations' rows and already-read rows untouched, zeroes the
conversation's unread counter, and brings `get_unread_count` to 0. -/
theorem mark_read_semantics :
    ∀ (s : Store) (c : String), StoreWF s →
      ((mark_messages_read s c).messages
        = s.messages.map (fun r =>
            if r.conversationId == c && r.type == "incoming" && !r.isRead then
              { r with isRead := true } else r))
      ∧ (∀ cr, findConv s c = some cr →
          findConv (mark_messages_read s c) c = some { cr with unreadCount := 0 })
      ∧ (∀ c', c' ≠ c →
          findConv (mark_messages_read s c) c' = findConv s c')
      ∧ get_unread_count (mark_messages_read s c) c = 0 := by
  intro s c hwf
  refine ⟨?_, ?_, ?_, ?_⟩
  · unfold mark_messages_read
    apply List.map_congr_left
    intro r hr
    obtain ⟨ht, hread⟩ := hwf r hr
    by_cases hc : (r.conversationId == c) = true
    · cases hr2 : r.isRead with
      | true => simp [hc, hr2]
      | false =>
        have hin : r.type = "incoming" := by
          rcases ht with h1 | h1
          · exact h1
          · rw [hread h1] at hr2
            cases hr2
        simp [hc, hr2, hin]
    · have hb : (r.conversationId == c) = false := Bool.eq_false_iff.mpr hc
      simp [hb]
  · intro cr hfind
    unfold mark_messages_read findConv
    dsimp only
    rw [find?_update_self s.conversations c
      (fun cv => { cv with unreadCount := 0 }) (fun cv hcv => hcv)]
    rw [show s.conversations.find? (fun r => r.id == c) = some cr from hfind]
    rfl
  · intro c' hne
    unfold mark_messages_read findConv
    dsimp only
    rw [find?_update_other s.conversations c c'
      (fun cv => { cv with unreadCount := 0 }) hne (fun cv hcv => hcv)]
  · unfold get_unread_count mark_messages_read
    dsimp only
    rw [List.length_eq_zero]
    rw [List.filter_eq_nil_iff]
    intro r' hr'
    simp only [List.mem_map] at hr'
    obtain ⟨r0, hr0, hr0eq⟩ := hr'
    subst hr0eq
    by_cases hc : (r0.conversationId == c) = true
    · cases hr2 : r0.isRead with
      | true => simp [hc, hr2]
      | false => simp [hc, hr2]
    · have hb : (r0.conversationId == c) = false := Bool.eq_false_iff.mpr hc
      simp [hb]

/-- Witness for `mark_read_semantics`: a store with 3 incoming unread
messages has unread count 3 before mark-read and 0 after, with every stored
message readable as read. -/
theorem mark_read_semantics_witness :
    StoreWF (save_message (save_message (save_message emptyStore exMsg1
      "+15550001" 0) exMsg2 "+15550001" 0) exMsg3 "+15550001" 0)
    ∧ get_unread_count (save_message (save_message (save_message emptyStore
        exMsg1 "+15550001" 0) exMsg2 "+15550001" 0) exMsg3 "+15550001" 0)
        "+15550001" = 3
    ∧ (findConv (save_message (save_message (save_message emptyStore exMsg1
        "+15550001" 0) exMsg2 "+15550001" 0) exMsg3 "+15550001" 0)
        "+15550001").map ConvRow.unreadCount = some 3
    ∧ get_unread_count (mark_messages_read (save_message (save_message
        (save_message emptyStore exMsg1 "+15550001" 0) exMsg2 "+15550001" 0)
        exMsg3 "+15550001" 0) "+15550001") "+15550001" = 0
    ∧ (mark_messages_read (save_message (save_message (save_message emptyStore
        exMsg1 "+15550001" 0) exMsg2 "+15550001" 0) exMsg3 "+15550001" 0)
        "+15550001").messages.all (fun r => r.isRead) = true
    ∧ (findConv (mark_messages_read (save_message (save_message (save_message
        emptyStore exMsg1 "+15550001" 0) exMsg2 "+15550001" 0) exMsg3
        "+15550001" 0) "+15550001") "+15550001").map ConvRow.unreadCount
      = some 0 := by
  have hwf : StoreWF (save_message (save_message (save_message emptyStore
      exMsg1 "+15550001" 0) exMsg2 "+15550001" 0) exMsg3 "+15550001" 0) := by
    decide
  have hmark := mark_read_semantics (save_message (save_message (save_message
    emptyStore exMsg1 "+15550001" 0) exMsg2 "+15550001" 0) exMsg3
    "+15550001" 0) "+15550001" hwf
  refine ⟨hwf, by decide, by decide, hmark.2.2.2, by decide, ?_⟩
  rw [hmark.2.1 _ rfl]
  rfl

/-! ## Reachable stores and claim C10 -/

/-- The write operations of the store, for stating facts about every store
the program can build. -/
inductive StoreOp where
  | save (m : Message) (conversation_id : String) (now : Int)
  | bulk (pairs : List (String × Message))
  | markRead (conversation_id : String)

/-- Apply one write operation. -/
def applyOp (s : Store) : StoreOp → Store
  | .save m c now => save_message s m c now
  | .bulk pairs => (bulk_insert_messages s pairs).1
  | .markRead c => mark_messages_read s c

/-- Run a sequence of write operations from the empty store. -/
def runOps (ops : List StoreOp) : Store := ops.foldl applyOp emptyStore

theorem storeWF_runOps (ops : List StoreOp) : StoreWF (runOps ops) := by
  suffices h : ∀ s, StoreWF s → StoreWF (ops.foldl applyOp s) by
    exact h emptyStore (fun r hr => absurd hr (List.not_mem_nil r))
  induction ops with
  | nil => exact fun s hs => hs
  | cons op rest ih =>
    intro s hs
    rw [List.foldl_cons]
    apply ih
    cases op with
    | save m c now => exact storeWF_save s m c now hs
    | bulk pairs => exact storeWF_bulk s pairs hs
    | markRead c => exact storeWF_mark_read s c hs

theorem query_rows_none (s : Store) (c : String) :
    query_rows s c none = s.messages.filter (fun r => r.conversationId == c) := rfl

theorem query_rows_some (s : Store) (c : String) (b : Int) :
    query_rows s c (some b)
      = if b ≠ 0 then
          s.messages.filter
            (fun r => r.conversationId == c && decide (r.sent_at < b))
        else s.messages.filter (fun r => r.conversationId == c) := rfl

theorem query_rows_mem {s : Store} {c : String} {before : Option Int}
    {r : MsgRow} (hr : r ∈ query_rows s c before) :
    r ∈ s.messages ∧ r.conversationId = c := by
  rcases before with _ | b
  · rw [query_rows_none] at hr
    obtain ⟨h1, h2⟩ := List.mem_filter.mp hr
    exact ⟨h1, beq_iff_eq.mp h2⟩
  · rw [query_rows_some] at hr
    by_cases hb : b = 0
    · rw [if_neg (fun hne => hne hb)] at hr
      obtain ⟨h1, h2⟩ := List.mem_filter.mp hr
      exact ⟨h1, beq_iff_eq.mp h2⟩
    · rw [if_pos hb] at hr
      obtain ⟨h1, h2⟩ := List.mem_filter.mp hr
      rw [Bool.and_eq_true] at h2
      exact ⟨h1, beq_iff_eq.mp h2.1⟩

theorem query_rows_before {s : Store} {c : String} {b : Int} {r : MsgRow}
    (hb : b ≠ 0) (hr : r ∈ query_rows s c (some b)) : r.sent_at < b := by
  rw [query_rows_some, if_pos hb] at hr
  obtain ⟨_, h2⟩ := List.mem_filter.mp hr
  rw [Bool.and_eq_true] at h2
  exact of_decide_eq_true h2.2

theorem get_messages_rows_mem {s : Store} {c : String} {limit : Nat}
    {before : Option Int} {r : MsgRow}
    (hr : r ∈ get_messages_rows s c limit before) : r ∈ query_rows s c before := by
  unfold get_messages_rows at hr
  rw [List.mem_reverse] at hr
  have h2 := List.take_sublist limit _ |>.mem hr
  rwa [List.mem_insertionSort] at h2

/-- Claim C10 — `save_message` stores the read flag as
`1 if message.is_read or message.is_outgoing else 0`; hence on every
reachable store all outgoing rows are read, and an outgoing message can
never be observed unread through `get_messages`. -/
theorem outgoing_stored_read :
    (∀ (m : Message) (c : String) (now : Int),
      (save_row m c now).isRead = (m.is_read || m.is_outgoing))
    ∧ (∀ ops : List StoreOp, ∀ r ∈ (runOps ops).messages,
        r.type = "outgoing" → r.isRead = true)
    ∧ (∀ (ops : List StoreOp) (c : String) (limit : Nat) (before : Option Int)
        (now : Int),
        ∀ msg ∈ get_messages (runOps ops) c limit before now,
          msg.is_outgoing = true → msg.is_read = true) := by
  refine ⟨fun m c now => rfl, ?_, ?_⟩
  · intro ops r hr hout
    exact ((storeWF_runOps ops) r hr).2 hout
  · intro ops c limit before now msg hmsg hout
    unfold get_messages at hmsg
    rw [List.mem_map] at hmsg
    obtain ⟨r, hr, hreq⟩ := hmsg
    have hrin : r ∈ (runOps ops).messages := (query_rows_mem (get_messages_rows_mem hr)).1
    have htype : r.type = "outgoing" := by
      have : msg.is_outgoing = (r.type == "outgoing") := by rw [← hreq]; rfl
      rw [hout] at this
      exact beq_iff_eq.mp this.symm
    have hread : r.isRead = true := ((storeWF_runOps ops) r hrin).2 htype
    have : msg.is_read = r.isRead := by rw [← hreq]; rfl
    rw [this, hread]

/-- An outgoing message saved with `is_read = false` (a concrete fixture). -/
def exMsgOut : Message :=
  { sender := "+15550099", sender_name := "You", body := "yo"
    timestampMs := 1500, is_outgoing := true, group_id := ""
    attachments := [], is_read := false }

/-- Witness for `outgoing_stored_read`: the outgoing fixture, stored and read
back, carries `is_read = true` although it was saved with `is_read = false`. -/
theorem outgoing_stored_read_witness :
    (row_to_message "+15550001" 42 (save_row exMsgOut "+15550001" 0)).is_read
      = true := by
  exact outgoing_stored_read.2.2 [StoreOp.save exMsgOut "+15550001" 0]
    "+15550001" 10 none 42 _ (by decide) (by decide)

/-! ## Ordering properties of `get_messages` (claim C3) -/

theorem orderedInsert_append_of_forall (a : MsgRow) :
    ∀ (m : List MsgRow), (∀ y ∈ m, ¬ descBySent a y) →
      m.orderedInsert descBySent a = m ++ [a] := by
  intro m
  induction m with
  | nil => intro _; rfl
  | cons b l ih =>
    intro h
    rw [List.orderedInsert]
    rw [if_neg (h b (List.mem_cons_self b l))]
    rw [ih (fun y hy => h y (List.mem_cons_of_mem b hy))]
    rfl

theorem insertionSort_eq_reverse_of_ascending :
    ∀ (l : List MsgRow), l.Pairwise (fun x y => x.sent_at < y.sent_at) →
      l.insertionSort descBySent = l.reverse := by
  intro l
  induction l with
  | nil => intro _; rfl
  | cons a l ih =>
    intro h
    obtain ⟨ha, hl⟩ := List.pairwise_cons.mp h
    rw [List.insertionSort, ih hl]
    rw [orderedInsert_append_of_forall a l.reverse (fun y hy => by
      have hy' : y ∈ l := List.mem_reverse.mp hy
      have := ha y hy'
      unfold descBySent
      omega)]
    rw [List.reverse_cons]

theorem get_messages_rows_length (s : Store) (c : String) (limit : Nat)
    (before : Option Int) : (get_messages_rows s c limit before).length ≤ limit := by
  unfold get_messages_rows
  rw [List.length_reverse, List.length_take]
  exact min_le_left _ _

theorem get_messages_rows_sorted (s : Store) (c : String) (limit : Nat)
    (before : Option Int) :
    (get_messages_rows s c limit before).Pairwise
      (fun a b => a.sent_at ≤ b.sent_at) := by
  unfold get_messages_rows
  rw [List.pairwise_reverse]
  exact List.Pairwise.sublist (List.take_sublist limit _)
    (List.sorted_insertionSort descBySent (query_rows s c before))

/-- Saving a message list into one conversation starting from the empty
store (each save with `now = 0`; `received_at` plays no role here). -/
def savesInto (c : String) (ms : List Message) : Store :=
  ms.foldl (fun st m => save_message st m c 0) emptyStore

theorem sameKey_false_of_sent_ne {a b : MsgRow} (h : a.sent_at ≠ b.sent_at) :
    sameKey a b = false := by
  simp [sameKey, h]

theorem foldl_save_messages (c : String) :
    ∀ (ms : List Message) (s : Store),
      (∀ m ∈ ms, ∀ r ∈ s.messages, r.sent_at ≠ m.timestampMs) →
      ms.Pairwise (fun m1 m2 => m1.timestampMs ≠ m2.timestampMs) →
      (ms.foldl (fun st m => save_message st m c 0) s).messages
        = s.messages ++ ms.map (fun m => save_row m c 0) := by
  intro ms
  induction ms with
  | nil => intro s _ _; simp
  | cons m rest ih =>
    intro s hfresh hpw
    obtain ⟨hm, hrest⟩ := List.pairwise_cons.mp hpw
    rw [List.foldl_cons]
    have hnodup : s.messages.any (fun r => sameKey r (save_row m c 0)) = false := by
      rw [List.any_eq_false]
      intro r hr
      rw [sameKey_false_of_sent_ne (by
        show r.sent_at ≠ (save_row m c 0).sent_at
        exact hfresh m (List.mem_cons_self m rest) r hr)]
      exact Bool.false_ne_true
    have hmsgs : (save_message s m c 0).messages
        = s.messages ++ [save_row m c 0] := by
      rw [save_message_messages, insertOrIgnore_of_not_hasKey hnodup]
    rw [ih (save_message s m c 0) (fun m' hm' r hr => by
      rw [hmsgs] at hr
      rcases List.mem_append.mp hr with h1 | h1
      · exact hfresh m' (List.mem_cons_of_mem m hm') r h1
      · rw [List.mem_singleton.mp h1]
        show (save_row m c 0).sent_at ≠ m'.timestampMs
        exact hm m' hm') hrest]
    rw [hmsgs, List.map_cons, List.append_assoc]
    rfl

theorem savesInto_messages (c : String) (ms : List Message)
    (hpw : ms.Pairwise (fun m1 m2 => m1.timestampMs ≠ m2.timestampMs)) :
    (savesInto c ms).messages = ms.map (fun m => save_row m c 0) := by
  unfold savesInto
  rw [foldl_save_messages c ms emptyStore
    (fun m _ r hr => absurd hr (List.not_mem_nil r)) hpw]
  rfl

/-- A message carrying the falsy timestamp 0 (a concrete fixture). -/
def exMsg0 : Message :=
  { sender := "+15550001", sender_name := "Alice", body := "zero"
    timestampMs := 0, is_outgoing := false, group_id := ""
    attachments := [], is_read := false }

/-- Counterexample to claim C3 as stated: with `before_timestamp = 0` the
query is *not* restricted to `sent_at < 0` — Python's `if before_timestamp:`
treats 0 like `None`, so a stored message with `sent_at = 1000` is returned;
and a message saved with timestamp 0 does not round-trip — the read path's
`if row["sent_at"]` truthiness replaces it with the current clock (777
here), breaking the same-increasing-order claim for such a sequence. -/
theorem get_messages_before_zero_counterexample :
    get_messages (save_message emptyStore exMsg1 "+15550001" 0) "+15550001" 10
        (some 0) 0
      = [row_to_message "+15550001" 0 (save_row exMsg1 "+15550001" 0)]
    ∧ ¬ (∀ msg ∈ get_messages (save_message emptyStore exMsg1 "+15550001" 0)
          "+15550001" 10 (some 0) 0, msg.timestampMs < 0)
    ∧ (get_messages (save_message emptyStore exMsg0 "+15550001" 0) "+15550001"
        10 none 777).map (fun m => m.timestampMs) = [777] := by
  exact ⟨rfl, by decide, rfl⟩

/-- Claim C3, amended — `get_messages` returns at most `limit` messages of
the conversation, restricted to `sent_at < before_timestamp` when
`before_timestamp` is given *and nonzero* (a zero `before_timestamp` is
treated as absent by Python truthiness), otherwise the most recent `limit`
messages; the result is always in ascending `sent_at` order, and messages
saved with strictly increasing *nonzero* timestamps come back in that same
order (the last `limit` of them when they exceed the limit) — a stored
`sent_at` of 0 is falsy on the read path and is replaced by the current
clock (src/message_store.py:407). -/
theorem get_messages_contract :
    (∀ (s : Store) (c : String) (limit : Nat) (before : Option Int) (now : Int),
      (get_messages s c limit before now).length ≤ limit)
    ∧ (∀ (s : Store) (c : String) (limit : Nat) (before : Option Int),
        ∀ r ∈ get_messages_rows s c limit before, r.conversationId = c)
    ∧ (∀ (s : Store) (c : String) (limit : Nat) (b : Int), b ≠ 0 →
        ∀ r ∈ get_messages_rows s c limit (some b), r.sent_at < b)
    ∧ (∀ (s : Store) (c : String) (limit : Nat) (before : Option Int),
        (get_messages_rows s c limit before).Pairwise
          (fun a b => a.sent_at ≤ b.sent_at))
    ∧ (∀ (c : String) (limit : Nat) (ms : List Message),
        ms.Pairwise (fun m1 m2 => m1.timestampMs < m2.timestampMs) →
        get_messages_rows (savesInto c ms) c limit none
          = (ms.map (fun m => save_row m c 0)).drop (ms.length - limit))
    ∧ (∀ (c : String) (limit : Nat) (ms : List Message) (now : Int),
        ms.Pairwise (fun m1 m2 => m1.timestampMs < m2.timestampMs) →
        (∀ m ∈ ms, m.timestampMs ≠ 0) →
        ms.length ≤ limit →
        (get_messages (savesInto c ms) c limit none now).map
            (fun m => m.timestampMs)
          = ms.map (fun m => m.timestampMs)) := by
  have hdrop : ∀ (c : String) (limit : Nat) (ms : List Message),
      ms.Pairwise (fun m1 m2 => m1.timestampMs < m2.timestampMs) →
      get_messages_rows (savesInto c ms) c limit none
        = (ms.map (fun m => save_row m c 0)).drop (ms.length - limit) := by
    intro c limit ms hpw
    have hne : ms.Pairwise (fun m1 m2 => m1.timestampMs ≠ m2.timestampMs) :=
      hpw.imp (fun h => by omega)
    have hrows : query_rows (savesInto c ms) c none
        = ms.map (fun m => save_row m c 0) := by
      rw [query_rows_none, savesInto_messages c ms hne]
      rw [List.filter_eq_self]
      intro r hr
      rw [List.mem_map] at hr
      obtain ⟨m, _, hm⟩ := hr
      rw [← hm]
      exact beq_self_eq_true c
    have hasc : (ms.map (fun m => save_row m c 0)).Pairwise
        (fun x y => x.sent_at < y.sent_at) := by
      rw [List.pairwise_map]
      exact hpw
    unfold get_messages_rows
    rw [hrows, insertionSort_eq_reverse_of_ascending _ hasc]
    rw [List.take_reverse, List.reverse_reverse, List.length_map]
  refine ⟨?_, ?_, ?_, get_messages_rows_sorted, hdrop, ?_⟩
  · intro s c limit before now
    unfold get_messages
    rw [List.length_map]
    exact get_messages_rows_length s c limit before
  · intro s c limit before r hr
    exact (query_rows_mem (get_messages_rows_mem hr)).2
  · intro s c limit b hb r hr
    exact query_rows_before hb (get_messages_rows_mem hr)
  · intro c limit ms now hpw hms hlen
    unfold get_messages
    rw [hdrop c limit ms hpw]
    have h0 : ms.length - limit = 0 := by omega
    rw [h0, List.drop_zero, List.map_map, List.map_map]
    apply List.map_congr_left
    intro m hm
    show (row_to_message c now (save_row m c 0)).timestampMs = m.timestampMs
    show (if m.timestampMs ≠ 0 then m.timestampMs else now) = m.timestampMs
    rw [if_pos (hms m hm)]

/-- Witness for `get_messages_contract` at two concrete saved messages
(timestamps 1000 < 2000, limit 10, and a nonzero `before_timestamp`). -/
theorem get_messages_contract_witness :
    ((get_messages (savesInto "+15550001" [exMsg1, exMsg2]) "+15550001" 10
        none 5).map (fun m => m.timestampMs)
      = [exMsg1, exMsg2].map (fun m => m.timestampMs))
    ∧ get_messages_rows (savesInto "+15550001" [exMsg1, exMsg2]) "+15550001" 10
        none
      = ([exMsg1, exMsg2].map (fun m => save_row m "+15550001" 0)).drop
          ([exMsg1, exMsg2].length - 10)
    ∧ (save_row exMsg1 "+15550001" 0).sent_at < 1500 := by
  refine ⟨get_messages_contract.2.2.2.2.2 "+15550001" 10 [exMsg1, exMsg2] 5
    (by decide) (by decide) (by decide),
    get_messages_contract.2.2.2.2.1 "+15550001" 10 [exMsg1, exMsg2] (by decide),
    get_messages_contract.2.2.1 (savesInto "+15550001" [exMsg1, exMsg2])
      "+15550001" 10 1500 (by decide) _ (by decide)⟩

/-! ## Conversation aggregation invariant (claim C2) -/

/-- The message rows stored for one conversation. -/
def convRowsOf (s : Store) (c : String) : List MsgRow :=
  s.messages.filter (fun r => r.conversationId == c)

/-- The aggregation invariant of claim C2: a conversation row exists exactly
when the conversation has stored messages, its `lastMessageAt` is the
numerically greatest `sent_at` among them, and `lastMessage` is the preview
of a stored message carrying that greatest `sent_at`. -/
def AggInv (s : Store) : Prop :=
  ∀ c : String,
    (convRowsOf s c = [] → findConv s c = none) ∧
    (convRowsOf s c ≠ [] →
      ∃ cr mx, findConv s c = some cr ∧ cr.lastMessageAt = some mx ∧
        (∀ r ∈ convRowsOf s c, r.sent_at ≤ mx) ∧
        (∃ r ∈ convRowsOf s c, r.sent_at = mx ∧ cr.lastMessage = preview r.body))

theorem convRowsOf_save_dup {s : Store} {m : Message} {c : String} {now : Int}
    (h : s.messages.any (fun r => sameKey r (save_row m c now)) = true)
    (c₀ : String) : convRowsOf (save_message s m c now) c₀ = convRowsOf s c₀ := by
  unfold convRowsOf
  rw [save_message_messages, insertOrIgnore_of_hasKey h]

theorem convRowsOf_save_new_self {s : Store} {m : Message} {c : String} {now : Int}
    (h : s.messages.any (fun r => sameKey r (save_row m c now)) = false) :
    convRowsOf (save_message s m c now) c
      = convRowsOf s c ++ [save_row m c now] := by
  unfold convRowsOf
  rw [save_message_messages, insertOrIgnore_of_not_hasKey h, List.filter_append]
  have hone : [save_row m c now].filter (fun r => r.conversationId == c)
      = [save_row m c now] := by
    rw [List.filter_eq_self]
    intro a ha
    rw [List.mem_singleton.mp ha]
    exact beq_self_eq_true c
  rw [hone]

theorem convRowsOf_save_other {s : Store} {m : Message} {c c₀ : String} {now : Int}
    (hc : c₀ ≠ c) :
    convRowsOf (save_message s m c now) c₀ = convRowsOf s c₀ := by
  unfold convRowsOf
  rw [save_message_messages]
  unfold insertOrIgnore
  split
  · rfl
  · rw [List.filter_append]
    have hzero : [save_row m c now].filter (fun r => r.conversationId == c₀) = [] := by
      rw [List.filter_eq_nil_iff]
      intro a ha
      rw [List.mem_singleton.mp ha]
      show ¬ ((save_row m c now).conversationId == c₀) = true
      simp only [beq_iff_eq]
      exact fun e => hc e.symm
    rw [hzero, List.append_nil]

theorem findConv_save_other {s : Store} {m : Message} {c c₀ : String} {now : Int}
    (hc : c₀ ≠ c) : findConv (save_message s m c now) c₀ = findConv s c₀ := by
  unfold save_message
  exact findConv_update_other hc

theorem save_message_eq_update_of_new {s : Store} {m : Message} {c : String}
    {now : Int}
    (h : s.messages.any (fun r => sameKey r (save_row m c now)) = false) :
    save_message s m c now
      = _update_conversation_on_message
          { s with messages := s.messages ++ [save_row m c now] } c m := by
  unfold save_message
  rw [insertOrIgnore_of_not_hasKey h]

theorem aggInv_save (s : Store) (m : Message) (c : String) (now : Int)
    (h : AggInv s) : AggInv (save_message s m c now) := by
  intro c₀
  by_cases hc : c₀ = c
  · subst hc
    cases hdup : s.messages.any (fun r => sameKey r (save_row m c₀ now)) with
    | true =>
      have hrows := convRowsOf_save_dup hdup c₀
      obtain ⟨r₀, hr₀mem, hr₀key⟩ := List.any_eq_true.mp hdup
      obtain ⟨hk1, hk2, _, hk4⟩ := sameKey_fields hr₀key
      have hr₀in : r₀ ∈ convRowsOf s c₀ :=
        List.mem_filter.mpr ⟨hr₀mem, beq_iff_eq.mpr hk1⟩
      have hne : convRowsOf s c₀ ≠ [] := List.ne_nil_of_mem hr₀in
      obtain ⟨cr, mx, hfind, hlast, hub, r₁, hr₁in, hr₁sent, hr₁prev⟩ :=
        (h c₀).2 hne
      have hsave := save_message_eq_update_of_dup hdup
      constructor
      · intro hempty
        rw [hrows] at hempty
        exact absurd hempty hne
      · intro _
        by_cases hle : mx ≤ m.timestampMs
        · have hcond : (match cr.lastMessageAt with
              | none => true
              | some v => decide (v ≤ m.timestampMs)) = true := by
            rw [hlast]
            exact decide_eq_true hle
          refine ⟨updatedConv cr m, m.timestampMs,
            by rw [hsave]; exact findConv_update_apply hfind hcond, rfl, ?_, ?_⟩
          · intro r hrin
            rw [hrows] at hrin
            have h1 := hub r hrin
            omega
          · refine ⟨r₀, by rw [hrows]; exact hr₀in, hk2, ?_⟩
            show (updatedConv cr m).lastMessage = preview r₀.body
            rw [hk4]
            rfl
        · have hcond : (match cr.lastMessageAt with
              | none => true
              | some v => decide (v ≤ m.timestampMs)) = false := by
            rw [hlast]
            exact decide_eq_false hle
          rw [hsave, update_conv_of_skip hfind hcond]
          exact (h c₀).2 hne
    | false =>
      have hrows := convRowsOf_save_new_self hdup
      have hsave := save_message_eq_update_of_new hdup
      constructor
      · intro hempty
        rw [hrows] at hempty
        simp at hempty
      · intro _
        by_cases hold : convRowsOf s c₀ = []
        · have hfind : findConv s c₀ = none := (h c₀).1 hold
          have hfind1 : findConv
              { s with messages := s.messages ++ [save_row m c₀ now] } c₀
              = none := hfind
          refine ⟨newConvRow c₀ m, m.timestampMs,
            by rw [hsave]; exact findConv_update_insert hfind1, rfl, ?_, ?_⟩
          · intro r hrin
            rw [hrows, hold, List.nil_append] at hrin
            rw [List.mem_singleton.mp hrin]
            exact le_refl _
          · refine ⟨save_row m c₀ now, ?_, rfl, rfl⟩
            rw [hrows, hold, List.nil_append]
            exact List.mem_singleton_self _
        · obtain ⟨cr, mx, hfind, hlast, hub, r₁, hr₁in, hr₁sent, hr₁prev⟩ :=
            (h c₀).2 hold
          have hfind1 : findConv
              { s with messages := s.messages ++ [save_row m c₀ now] } c₀
              = some cr := hfind
          by_cases hle : mx ≤ m.timestampMs
          · have hcond : (match cr.lastMessageAt with
                | none => true
                | some v => decide (v ≤ m.timestampMs)) = true := by
              rw [hlast]
              exact decide_eq_true hle
            refine ⟨updatedConv cr m, m.timestampMs,
              by rw [hsave]; exact findConv_update_apply hfind1 hcond, rfl, ?_, ?_⟩
            · intro r hrin
              rw [hrows] at hrin
              rcases List.mem_append.mp hrin with h1 | h1
              · have := hub r h1
                omega
              · rw [List.mem_singleton.mp h1]
                exact le_refl _
            · refine ⟨save_row m c₀ now, ?_, rfl, rfl⟩
              rw [hrows]
              exact List.mem_append_right _ (List.mem_singleton_self _)
          · have hcond : (match cr.lastMessageAt with
                | none => true
                | some v => decide (v ≤ m.timestampMs)) = false := by
              rw [hlast]
              exact decide_eq_false hle
            refine ⟨cr, mx,
              by rw [hsave, update_conv_of_skip hfind1 hcond]; exact hfind1,
              hlast, ?_, ?_⟩
            · intro r hrin
              rw [hrows] at hrin
              rcases List.mem_append.mp hrin with h1 | h1
              · exact hub r h1
              · rw [List.mem_singleton.mp h1]
                show m.timestampMs ≤ mx
                omega
            · refine ⟨r₁, ?_, hr₁sent, hr₁prev⟩
              rw [hrows]
              exact List.mem_append_left _ hr₁in
  · have hrows : convRowsOf (save_message s m c now) c₀ = convRowsOf s c₀ :=
      convRowsOf_save_other hc
    have hfind : findConv (save_message s m c now) c₀ = findConv s c₀ :=
      findConv_save_other hc
    constructor
    · intro hempty
      rw [hfind]
      exact (h c₀).1 (hrows ▸ hempty)
    · intro hne
      rw [hrows, hfind]
      exact (h c₀).2 (hrows ▸ hne)

/-- A sequence of `save_message` calls starting from the empty store;
each triple is (message, conversation id, received-at clock). -/
def runSaves (ops : List (Message × String × Int)) : Store :=
  ops.foldl (fun s p => save_message s p.1 p.2.1 p.2.2) emptyStore

theorem aggInv_empty : AggInv emptyStore := by
  intro c
  refine ⟨fun _ => rfl, fun hne => absurd rfl hne⟩

theorem aggInv_runSaves (ops : List (Message × String × Int)) :
    AggInv (runSaves ops) := by
  suffices h : ∀ s, AggInv s →
      AggInv (ops.foldl (fun s p => save_message s p.1 p.2.1 p.2.2) s) by
    exact h emptyStore aggInv_empty
  induction ops with
  | nil => exact fun s hs => hs
  | cons op rest ih =>
    intro s hs
    rw [List.foldl_cons]
    exact ih _ (aggInv_save s op.1 op.2.1 op.2.2 hs)

/-- Claim C2 — conversation-aggregation invariant and monotonicity: on every
store reachable by `save_message` calls, a conversation with stored messages
has `lastMessageAt` equal to the greatest stored `sent_at` and `lastMessage`
equal to the preview of a message with that `sent_at`; a write to an existing
row with stored timestamp `v` applies the preview/timestamp/unread update
exactly when the new timestamp is ≥ `v` (incrementing `unread_count` only
when the update applies and the message is incoming and unread, per
`updatedConv`); and saving timestamps T2 then T1 with T1 < T2 leaves
`last_message_at = T2`. -/
theorem conversation_aggregation_monotone :
    (∀ (ops : List (Message × String × Int)) (c : String),
      convRowsOf (runSaves ops) c ≠ [] →
      ∃ cr mx, findConv (runSaves ops) c = some cr
        ∧ cr.lastMessageAt = some mx
        ∧ (∀ r ∈ convRowsOf (runSaves ops) c, r.sent_at ≤ mx)
        ∧ (∃ r ∈ convRowsOf (runSaves ops) c,
            r.sent_at = mx ∧ cr.lastMessage = preview r.body))
    ∧ (∀ (s : Store) (m : Message) (c : String) (now : Int) (cr : ConvRow) (v : Int),
        findConv s c = some cr → cr.lastMessageAt = some v →
        findConv (save_message s m c now) c
          = some (if v ≤ m.timestampMs then updatedConv cr m else cr))
    ∧ (∀ (m1 m2 : Message) (c : String) (now1 now2 : Int),
        m1.timestampMs < m2.timestampMs →
        ∃ cr, findConv (save_message (save_message emptyStore m2 c now2)
            m1 c now1) c = some cr ∧ cr.lastMessageAt = some m2.timestampMs) := by
  refine ⟨?_, ?_, ?_⟩
  · intro ops c hne
    exact (aggInv_runSaves ops c).2 hne
  · intro s m c now cr v hfind hlast
    have hfind1 : findConv
        { s with messages := insertOrIgnore s.messages (save_row m c now) } c
        = some cr := hfind
    by_cases hle : v ≤ m.timestampMs
    · have hcond : (match cr.lastMessageAt with
          | none => true
          | some w => decide (w ≤ m.timestampMs)) = true := by
        rw [hlast]
        exact decide_eq_true hle
      rw [if_pos hle]
      exact findConv_update_apply hfind1 hcond
    · have hcond : (match cr.lastMessageAt with
          | none => true
          | some w => decide (w ≤ m.timestampMs)) = false := by
        rw [hlast]
        exact decide_eq_false hle
      rw [if_neg hle]
      show findConv (_update_conversation_on_message
        { s with messages := insertOrIgnore s.messages (save_row m c now) } c m) c
        = some cr
      rw [update_conv_of_skip hfind1 hcond]
      exact hfind1
  · intro m1 m2 c now1 now2 hlt
    have hfind1 : findConv (save_message emptyStore m2 c now2) c
        = some (newConvRow c m2) := by
      unfold save_message
      exact findConv_update_insert rfl
    have hcond : (match (newConvRow c m2).lastMessageAt with
        | none => true
        | some w => decide (w ≤ m1.timestampMs)) = false := by
      show decide (m2.timestampMs ≤ m1.timestampMs) = false
      exact decide_eq_false (by omega)
    have hfind1' : findConv { save_message emptyStore m2 c now2 with
        messages := insertOrIgnore (save_message emptyStore m2 c now2).messages
          (save_row m1 c now1) } c = some (newConvRow c m2) := hfind1
    refine ⟨newConvRow c m2, ?_, rfl⟩
    show findConv (_update_conversation_on_message
      { save_message emptyStore m2 c now2 with
        messages := insertOrIgnore (save_message emptyStore m2 c now2).messages
          (save_row m1 c now1) } c m1) c = some (newConvRow c m2)
    rw [update_conv_of_skip hfind1' hcond]
    exact hfind1'

/-- Witness for `conversation_aggregation_monotone` at concrete saves
(timestamps 1000 and 2000, one conversation). -/
theorem conversation_aggregation_monotone_witness :
    (∃ cr mx, findConv (runSaves [(exMsg1, "+15550001", 0)]) "+15550001"
        = some cr
      ∧ cr.lastMessageAt = some mx
      ∧ (∀ r ∈ convRowsOf (runSaves [(exMsg1, "+15550001", 0)]) "+15550001",
          r.sent_at ≤ mx)
      ∧ (∃ r ∈ convRowsOf (runSaves [(exMsg1, "+15550001", 0)]) "+15550001",
          r.sent_at = mx ∧ cr.lastMessage = preview r.body))
    ∧ findConv (save_message (save_message emptyStore exMsg1 "+15550001" 0)
        exMsg2 "+15550001" 0) "+15550001"
      = some (if (1000 : Int) ≤ exMsg2.timestampMs
          then updatedConv (newConvRow "+15550001" exMsg1) exMsg2
          else newConvRow "+15550001" exMsg1)
    ∧ (∃ cr, findConv (save_message (save_message emptyStore exMsg2
          "+15550001" 7) exMsg1 "+15550001" 9) "+15550001" = some cr
        ∧ cr.lastMessageAt = some exMsg2.timestampMs) := by
  refine ⟨conversation_aggregation_monotone.1 [(exMsg1, "+15550001", 0)]
      "+15550001" (by decide),
    conversation_aggregation_monotone.2.1 (save_message emptyStore exMsg1
      "+15550001" 0) exMsg2 "+15550001" 0 (newConvRow "+15550001" exMsg1)
      1000 (by decide) rfl,
    conversation_aggregation_monotone.2.2 exMsg1 exMsg2 "+15550001" 9 7
      (by decide)⟩

/-! ## Lemmas for the SafeStorage codec (claims C4 and C7) -/

theorem hexDigitVal_hexDigitChar {n : Nat} (h : n < 16) :
    hexDigitVal (hexDigitChar n) = some n := by
  interval_cases n <;> rfl

theorem hexEncode_nil : hexEncode [] = [] := rfl

theorem hexEncode_cons (b : Nat) (bs : List Nat) :
    hexEncode (b :: bs)
      = hexDigitChar (b / 16) :: hexDigitChar (b % 16) :: hexEncode bs := rfl

theorem hexDecode_hexEncode (bs : List Nat) (h : ∀ b ∈ bs, b < 256) :
    hexDecode (hexEncode bs) = some bs := by
  induction bs with
  | nil => rfl
  | cons b rest ih =>
    have hb : b < 256 := h b (List.mem_cons_self b rest)
    have h1 : hexDigitVal (hexDigitChar (b / 16)) = some (b / 16) :=
      hexDigitVal_hexDigitChar (by omega)
    have h2 : hexDigitVal (hexDigitChar (b % 16)) = some (b % 16) :=
      hexDigitVal_hexDigitChar (by omega)
    rw [hexEncode_cons]
    show (match hexDigitVal (hexDigitChar (b / 16)),
        hexDigitVal (hexDigitChar (b % 16)), hexDecode (hexEncode rest) with
      | some hi, some lo, some l => some ((hi * 16 + lo) :: l)
      | _, _, _ => none) = some (b :: rest)
    rw [h1, h2, ih (fun x hx => h x (List.mem_cons_of_mem b hx))]
    show some ((b / 16 * 16 + b % 16) :: rest) = some (b :: rest)
    have : b / 16 * 16 + b % 16 = b := by omega
    rw [this]

theorem hexEncode_length (bs : List Nat) : (hexEncode bs).length = 2 * bs.length := by
  induction bs with
  | nil => rfl
  | cons b rest ih =>
    rw [hexEncode_cons]
    simp only [List.length_cons, ih]
    omega

theorem hexEncode_chars (bs : List Nat) (h : ∀ b ∈ bs, b < 256) :
    ∀ ch ∈ hexEncode bs, (hexDigitVal ch).isSome := by
  induction bs with
  | nil => intro ch hch; cases hch
  | cons b rest ih =>
    intro ch hch
    have hb : b < 256 := h b (List.mem_cons_self b rest)
    rw [hexEncode_cons] at hch
    rcases List.mem_cons.mp hch with h1 | hch
    · rw [h1, hexDigitVal_hexDigitChar (by omega : b / 16 < 16)]
      rfl
    rcases List.mem_cons.mp hch with h2 | hch
    · rw [h2, hexDigitVal_hexDigitChar (by omega : b % 16 < 16)]
      rfl
    · exact ih (fun x hx => h x (List.mem_cons_of_mem b hx)) ch hch

theorem toBlocksFuel_congr :
    ∀ (f1 f2 : Nat) (l : List Nat), l.length ≤ f1 → l.length ≤ f2 →
      toBlocksFuel f1 l = toBlocksFuel f2 l := by
  intro f1
  induction f1 with
  | zero =>
    intro f2 l h1 _
    have : l = [] := List.length_eq_zero.mp (by omega)
    subst this
    cases f2 <;> rfl
  | succ f ih =>
    intro f2 l h1 h2
    cases l with
    | nil => cases f2 <;> rfl
    | cons x xs =>
      cases f2 with
      | zero => simp at h2
      | succ g =>
        show (x :: xs).take 16 :: toBlocksFuel f ((x :: xs).drop 16)
          = (x :: xs).take 16 :: toBlocksFuel g ((x :: xs).drop 16)
        have hlen : ((x :: xs).drop 16).length = (x :: xs).length - 16 :=
          List.length_drop 16 (x :: xs)
        rw [ih g ((x :: xs).drop 16) (by simp at h1 ⊢; omega)
          (by simp at h2 ⊢; omega)]

theorem toBlocks_nil : toBlocks [] = [] := rfl

theorem toBlocks_cons {l : List Nat} (h : l ≠ []) :
    toBlocks l = l.take 16 :: toBlocks (l.drop 16) := by
  cases l with
  | nil => exact absurd rfl h
  | cons x xs =>
    show toBlocksFuel (xs.length + 1) (x :: xs) = _
    show (x :: xs).take 16 :: toBlocksFuel xs.length ((x :: xs).drop 16)
      = (x :: xs).take 16 :: toBlocksFuel ((x :: xs).drop 16).length
          ((x :: xs).drop 16)
    rw [toBlocksFuel_congr xs.length ((x :: xs).drop 16).length
      ((x :: xs).drop 16) (by simp only [List.length_drop, List.length_cons]; omega)
      (le_refl _)]

theorem flatten_toBlocks (l : List Nat) : (toBlocks l).flatten = l := by
  by_cases h : l = []
  · subst h; rfl
  · rw [toBlocks_cons h, List.flatten_cons, flatten_toBlocks (l.drop 16),
      List.take_append_drop]
termination_by l.length
decreasing_by
  have : 0 < l.length := List.length_pos.mpr h
  simp [List.length_drop]
  omega

theorem toBlocks_blocks_len (l : List Nat) (h : l.length % 16 = 0) :
    ∀ blk ∈ toBlocks l, blk.length = 16 := by
  by_cases hl : l = []
  · subst hl; intro blk hblk; cases hblk
  · intro blk hblk
    rw [toBlocks_cons hl] at hblk
    have hlen : 0 < l.length := List.length_pos.mpr hl
    have h16 : 16 ≤ l.length := by omega
    rcases List.mem_cons.mp hblk with h1 | h1
    · rw [h1, List.length_take]
      exact min_eq_left h16
    · exact toBlocks_blocks_len (l.drop 16)
        (by rw [List.length_drop]; omega) blk h1
termination_by l.length
decreasing_by
  have : 0 < l.length := List.length_pos.mpr hl
  simp [List.length_drop]
  omega

theorem toBlocks_sub (l : List Nat) :
    ∀ blk ∈ toBlocks l, ∀ x ∈ blk, x ∈ l := by
  by_cases hl : l = []
  · subst hl; intro blk hblk; cases hblk
  · intro blk hblk x hx
    rw [toBlocks_cons hl] at hblk
    rcases List.mem_cons.mp hblk with h1 | h1
    · exact List.mem_of_mem_take (h1 ▸ hx)
    · exact List.mem_of_mem_drop (toBlocks_sub (l.drop 16) blk h1 x hx)
termination_by l.length
decreasing_by
  have : 0 < l.length := List.length_pos.mpr hl
  simp [List.length_drop]
  omega

theorem toBlocks_flatten (bs : List (List Nat)) (h : ∀ b ∈ bs, b.length = 16) :
    toBlocks bs.flatten = bs := by
  induction bs with
  | nil => rfl
  | cons b rest ih =>
    have hb : b.length = 16 := h b (List.mem_cons_self b rest)
    have hbne : b ++ rest.flatten ≠ [] := by
      intro he
      have hlen := congrArg List.length he
      rw [List.length_append] at hlen
      simp only [List.length_nil] at hlen
      omega
    rw [List.flatten_cons, toBlocks_cons hbne]
    have htake : (b ++ rest.flatten).take 16 = b := by
      rw [← hb]
      exact List.take_left b rest.flatten
    have hdrop : (b ++ rest.flatten).drop 16 = rest.flatten := by
      rw [← hb]
      exact List.drop_left b rest.flatten
    rw [htake, hdrop, ih (fun x hx => h x (List.mem_cons_of_mem b hx))]

theorem flatten_length_16 (bs : List (List Nat)) (h : ∀ b ∈ bs, b.length = 16) :
    bs.flatten.length = 16 * bs.length := by
  induction bs with
  | nil => rfl
  | cons b rest ih =>
    rw [List.flatten_cons, List.length_append,
      ih (fun x hx => h x (List.mem_cons_of_mem b hx)),
      h b (List.mem_cons_self b rest), List.length_cons]
    omega

theorem xorBlock_length (a b : List Nat) :
    (xorBlock a b).length = min a.length b.length := by
  unfold xorBlock
  rw [List.length_zipWith]

theorem xorBlock_cancel : ∀ (a b : List Nat), a.length = b.length →
    xorBlock (xorBlock a b) b = a := by
  intro a
  induction a with
  | nil => intro b _; rfl
  | cons x xs ih =>
    intro b hlen
    cases b with
    | nil => simp at hlen
    | cons y ys =>
      show ((x ^^^ y) ^^^ y) :: xorBlock (xorBlock xs ys) ys = x :: xs
      rw [Nat.xor_cancel_right, ih ys (by simpa using hlen)]

theorem xorBlock_range : ∀ (a b : List Nat), (∀ x ∈ a, x < 256) →
    (∀ x ∈ b, x < 256) → ∀ x ∈ xorBlock a b, x < 256 := by
  intro a
  induction a with
  | nil => intro b _ _ x hx; cases hx
  | cons u us ih =>
    intro b ha hb x hx
    cases b with
    | nil => cases hx
    | cons v vs =>
      rcases List.mem_cons.mp hx with h1 | h1
      · rw [h1]
        exact Nat.xor_lt_two_pow (n := 8)
          (ha u (List.mem_cons_self u us)) (hb v (List.mem_cons_self v vs))
      · exact ih vs (fun y hy => ha y (List.mem_cons_of_mem u hy))
          (fun y hy => hb y (List.mem_cons_of_mem v hy)) x h1

theorem cbcEncryptBlocks_length (enc : BlockFn) (key : List Nat)
    (hlen : ∀ b, b.length = 16 → (enc key b).length = 16) :
    ∀ (bs : List (List Nat)) (prev : List Nat), prev.length = 16 →
      (∀ b ∈ bs, b.length = 16) →
      ∀ cb ∈ cbcEncryptBlocks enc key prev bs, cb.length = 16 := by
  intro bs
  induction bs with
  | nil => intro prev _ _ cb hcb; cases hcb
  | cons b rest ih =>
    intro prev hprev hbs cb hcb
    have hx : (xorBlock b prev).length = 16 := by
      rw [xorBlock_length, hbs b (List.mem_cons_self b rest), hprev]
      rfl
    have hc : (enc key (xorBlock b prev)).length = 16 := hlen _ hx
    rcases List.mem_cons.mp hcb with h1 | h1
    · rw [h1]; exact hc
    · exact ih (enc key (xorBlock b prev)) hc
        (fun y hy => hbs y (List.mem_cons_of_mem b hy)) cb h1

theorem cbcEncryptBlocks_range (enc : BlockFn) (key : List Nat)
    (hlen : ∀ b, b.length = 16 → (enc key b).length = 16)
    (hrange : ∀ b, b.length = 16 → (∀ x ∈ b, x < 256) →
      ∀ x ∈ enc key b, x < 256) :
    ∀ (bs : List (List Nat)) (prev : List Nat), prev.length = 16 →
      (∀ x ∈ prev, x < 256) →
      (∀ b ∈ bs, b.length = 16) → (∀ b ∈ bs, ∀ x ∈ b, x < 256) →
      ∀ cb ∈ cbcEncryptBlocks enc key prev bs, ∀ x ∈ cb, x < 256 := by
  intro bs
  induction bs with
  | nil => intro prev _ _ _ _ cb hcb; cases hcb
  | cons b rest ih =>
    intro prev hprev hprevr hbs hbsr cb hcb
    have hx : (xorBlock b prev).length = 16 := by
      rw [xorBlock_length, hbs b (List.mem_cons_self b rest), hprev]
      rfl
    have hxr : ∀ x ∈ xorBlock b prev, x < 256 :=
      xorBlock_range b prev (hbsr b (List.mem_cons_self b rest)) hprevr
    have hc : (enc key (xorBlock b prev)).length = 16 := hlen _ hx
    have hcr : ∀ x ∈ enc key (xorBlock b prev), x < 256 := hrange _ hx hxr
    rcases List.mem_cons.mp hcb with h1 | h1
    · rw [h1]; exact hcr
    · exact ih (enc key (xorBlock b prev)) hc hcr
        (fun y hy => hbs y (List.mem_cons_of_mem b hy))
        (fun y hy => hbsr y (List.mem_cons_of_mem b hy)) cb h1

theorem cbcDecrypt_cbcEncrypt (enc dec : BlockFn) (key : List Nat)
    (hinv : ∀ b, b.length = 16 → dec key (enc key b) = b)
    (hlen : ∀ b, b.length = 16 → (enc key b).length = 16) :
    ∀ (bs : List (List Nat)) (prev : List Nat), prev.length = 16 →
      (∀ b ∈ bs, b.length = 16) →
      cbcDecryptBlocks dec key prev (cbcEncryptBlocks enc key prev bs) = bs := by
  intro bs
  induction bs with
  | nil => intro prev _ _; rfl
  | cons b rest ih =>
    intro prev hprev hbs
    have hb : b.length = 16 := hbs b (List.mem_cons_self b rest)
    have hx : (xorBlock b prev).length = 16 := by
      rw [xorBlock_length, hb, hprev]
      rfl
    show xorBlock (dec key (enc key (xorBlock b prev))) prev
        :: cbcDecryptBlocks dec key (enc key (xorBlock b prev))
            (cbcEncryptBlocks enc key (enc key (xorBlock b prev)) rest)
      = b :: rest
    rw [hinv _ hx, xorBlock_cancel b prev (by rw [hb, hprev]),
      ih (enc key (xorBlock b prev)) (hlen _ hx)
        (fun y hy => hbs y (List.mem_cons_of_mem b hy))]

theorem getLast?_replicate (k v : Nat) (h : 1 ≤ k) :
    (List.replicate k v).getLast? = some v := by
  induction k with
  | zero => omega
  | succ n ih =>
    cases n with
    | zero => rfl
    | succ p =>
      rw [List.replicate_succ, List.getLast?_cons, ih (by omega)]
      cases hrep : List.replicate (p + 1) v with
      | nil =>
        have := congrArg List.length hrep
        simp at this
      | cons a l => simp

theorem getLast?_append_replicate (pt : List Nat) (k v : Nat) (h : 1 ≤ k) :
    (pt ++ List.replicate k v).getLast? = some v := by
  rw [List.getLast?_append, getLast?_replicate k v h]
  rfl

/-- Evaluation of `_decrypt_safe_storage` on a well-formed `v10`/`v11` input:
the version tag selects the iteration count, the remaining bytes are
CBC-decrypted, and the trailing byte drives the (unvalidated) unpadding. -/
theorem decrypt_eval (kdf : Kdf) (dec : BlockFn) (s : List Char)
    (pw bs version : List Nat) (hver : version = vTag10 ∨ version = vTag11)
    (hhex : hexDecode s = some (version ++ bs)) (halign : bs.length % 16 = 0) :
    _decrypt_safe_storage kdf dec s pw
      = match (cbcDecryptBytes dec (kdf pw saltBytes
            (if version = vTag10 then 1003 else 1) 16) bs).getLast? with
        | none => .error .indexErrorOnEmpty
        | some padding_len =>
          if isValidUtf8 (pySliceDropLast (cbcDecryptBytes dec (kdf pw saltBytes
              (if version = vTag10 then 1003 else 1) 16) bs) padding_len) then
            .ok (pySliceDropLast (cbcDecryptBytes dec (kdf pw saltBytes
              (if version = vTag10 then 1003 else 1) 16) bs) padding_len)
          else .error .unicodeDecodeError := by
  have hv3 : version.length = 3 := by
    rcases hver with h | h <;> subst h <;> rfl
  have htag : (version ++ bs).take 3 = version := by
    rw [← hv3]
    exact List.take_left version bs
  have hdropv : (version ++ bs).drop 3 = bs := by
    rw [← hv3]
    exact List.drop_left version bs
  have hiter : (if (version ++ bs).take 3 = vTag10 then (some 1003 : Option Nat)
      else if (version ++ bs).take 3 = vTag11 then some 1 else none)
      = some (if version = vTag10 then 1003 else 1) := by
    rw [htag]
    rcases hver with h | h <;> subst h <;> rfl
  have hcond : ¬ ((version ++ bs).drop 3).length % 16 ≠ 0 := by
    rw [hdropv, halign]
    exact fun h => h rfl
  unfold _decrypt_safe_storage
  rw [hhex]
  dsimp only
  rw [hiter]
  dsimp only
  rw [if_neg hcond, hdropv]

/-- Claim C4 — SafeStorage codec round-trip: for any PBKDF2 implementation
`kdf` and any AES block cipher pair `enc`/`dec` that invert each other on
16-byte blocks (the contract of the external `cryptography` library), the
repository's v10 encryption fixture decrypts back to the plaintext with 1003
iterations, the v11 fixture with 1 iteration, and any input whose 3-byte tag
is `"v99"` fails with the unsupported-version error.  The plaintext ranges
over UTF-8 encodings of strings (the claim's P is a string), expressed by
the `isValidUtf8` hypothesis; decryption ends in `decode("utf-8")`. -/
theorem safe_storage_codec_roundtrip :
    ∀ (kdf : Kdf) (enc dec : BlockFn) (password plaintext : List Nat),
      (∀ key b, b.length = 16 → dec key (enc key b) = b) →
      (∀ key b, b.length = 16 → (enc key b).length = 16) →
      (∀ key b, b.length = 16 → (∀ x ∈ b, x < 256) → ∀ x ∈ enc key b, x < 256) →
      (∀ x ∈ plaintext, x < 256) →
      isValidUtf8 plaintext = true →
      (_decrypt_safe_storage kdf dec
          (encrypt_for_safe_storage kdf enc plaintext password vTag10) password
        = .ok plaintext
      ∧ _decrypt_safe_storage kdf dec
          (encrypt_for_safe_storage kdf enc plaintext password vTag11) password
        = .ok plaintext
      ∧ ∀ (s : List Char) (rest : List Nat),
          hexDecode s = some (118 :: 57 :: 57 :: rest) →
          _decrypt_safe_storage kdf dec s password
            = .error (.unsupportedVersion [118, 57, 57])) := by
  intro kdf enc dec password plaintext hinv hlen hrange hpt hvalid
  have hcore : ∀ version : List Nat, version = vTag10 ∨ version = vTag11 →
      _decrypt_safe_storage kdf dec
        (encrypt_for_safe_storage kdf enc plaintext password version) password
        = .ok plaintext := by
    intro version hver
    have hpadlen1 : 1 ≤ 16 - plaintext.length % 16 := by omega
    have hpadlen16 : 16 - plaintext.length % 16 ≤ 16 := by omega
    have hpadded_len : (plaintext ++ List.replicate (16 - plaintext.length % 16)
        (16 - plaintext.length % 16)).length % 16 = 0 := by
      rw [List.length_append, List.length_replicate]
      omega
    have hpadded_range : ∀ x ∈ plaintext ++ List.replicate
        (16 - plaintext.length % 16) (16 - plaintext.length % 16), x < 256 := by
      intro x hx
      rcases List.mem_append.mp hx with h | h
      · exact hpt x h
      · rw [List.eq_of_mem_replicate h]
        omega
    have hblocks_len := toBlocks_blocks_len _ hpadded_len
    have hblocks_range : ∀ blk ∈ toBlocks (plaintext ++ List.replicate
        (16 - plaintext.length % 16) (16 - plaintext.length % 16)),
        ∀ x ∈ blk, x < 256 :=
      fun blk hblk x hx => hpadded_range x (toBlocks_sub _ blk hblk x hx)
    have hIVlen : (cbcIV : List Nat).length = 16 := by decide
    have hIVrange : ∀ x ∈ cbcIV, x < 256 := by decide
    have hkey := kdf password saltBytes (if version = vTag10 then 1003 else 1) 16
    have hct_blocks : ∀ cb ∈ cbcEncryptBlocks enc
        (kdf password saltBytes (if version = vTag10 then 1003 else 1) 16)
        cbcIV (toBlocks (plaintext ++ List.replicate
          (16 - plaintext.length % 16) (16 - plaintext.length % 16))),
        cb.length = 16 :=
      cbcEncryptBlocks_length enc _ (hlen _) _ cbcIV hIVlen hblocks_len
    have hct_range : ∀ cb ∈ cbcEncryptBlocks enc
        (kdf password saltBytes (if version = vTag10 then 1003 else 1) 16)
        cbcIV (toBlocks (plaintext ++ List.replicate
          (16 - plaintext.length % 16) (16 - plaintext.length % 16))),
        ∀ x ∈ cb, x < 256 :=
      cbcEncryptBlocks_range enc _ (hlen _) (hrange _) _ cbcIV hIVlen hIVrange
        hblocks_len hblocks_range
    have hct_align : ((cbcEncryptBlocks enc
        (kdf password saltBytes (if version = vTag10 then 1003 else 1) 16)
        cbcIV (toBlocks (plaintext ++ List.replicate
          (16 - plaintext.length % 16) (16 - plaintext.length % 16)))).flatten).length
        % 16 = 0 := by
      rw [flatten_length_16 _ hct_blocks]
      omega
    have hvrange : ∀ x ∈ version, x < 256 := by
      rcases hver with h | h <;> subst h <;> decide
    have hallrange : ∀ x ∈ version ++ (cbcEncryptBlocks enc
        (kdf password saltBytes (if version = vTag10 then 1003 else 1) 16)
        cbcIV (toBlocks (plaintext ++ List.replicate
          (16 - plaintext.length % 16) (16 - plaintext.length % 16)))).flatten,
        x < 256 := by
      intro x hx
      rcases List.mem_append.mp hx with h | h
      · exact hvrange x h
      · obtain ⟨cb, hcb, hxcb⟩ := List.mem_flatten.mp h
        exact hct_range cb hcb x hxcb
    have hencdef : encrypt_for_safe_storage kdf enc plaintext password version
        = hexEncode (version ++ (cbcEncryptBlocks enc
            (kdf password saltBytes (if version = vTag10 then 1003 else 1) 16)
            cbcIV (toBlocks (plaintext ++ List.replicate
              (16 - plaintext.length % 16) (16 - plaintext.length % 16)))).flatten) :=
      rfl
    have hhex : hexDecode (encrypt_for_safe_storage kdf enc plaintext password
        version) = some (version ++ (cbcEncryptBlocks enc
          (kdf password saltBytes (if version = vTag10 then 1003 else 1) 16)
          cbcIV (toBlocks (plaintext ++ List.replicate
            (16 - plaintext.length % 16) (16 - plaintext.length % 16)))).flatten) := by
      rw [hencdef]
      exact hexDecode_hexEncode _ hallrange
    rw [decrypt_eval kdf dec _ password _ version hver hhex hct_align]
    have hdecbytes : cbcDecryptBytes dec
        (kdf password saltBytes (if version = vTag10 then 1003 else 1) 16)
        ((cbcEncryptBlocks enc
          (kdf password saltBytes (if version = vTag10 then 1003 else 1) 16)
          cbcIV (toBlocks (plaintext ++ List.replicate
            (16 - plaintext.length % 16) (16 - plaintext.length % 16)))).flatten)
        = plaintext ++ List.replicate (16 - plaintext.length % 16)
            (16 - plaintext.length % 16) := by
      unfold cbcDecryptBytes
      rw [toBlocks_flatten _ hct_blocks]
      rw [cbcDecrypt_cbcEncrypt enc dec _ (hinv _) (hlen _) _ cbcIV hIVlen
        hblocks_len]
      exact flatten_toBlocks _
    rw [hdecbytes]
    rw [getLast?_append_replicate plaintext _ _ hpadlen1]
    have hslice : pySliceDropLast (plaintext ++ List.replicate
        (16 - plaintext.length % 16) (16 - plaintext.length % 16))
        (16 - plaintext.length % 16) = plaintext := by
      unfold pySliceDropLast
      rw [if_neg (by omega)]
      rw [List.length_append, List.length_replicate]
      have harith : plaintext.length + (16 - plaintext.length % 16)
          - (16 - plaintext.length % 16) = plaintext.length := by omega
      rw [harith]
      exact List.take_left plaintext _
    show (if isValidUtf8 (pySliceDropLast (plaintext ++ List.replicate
          (16 - plaintext.length % 16) (16 - plaintext.length % 16))
          (16 - plaintext.length % 16)) = true then
        Except.ok (pySliceDropLast (plaintext ++ List.replicate
          (16 - plaintext.length % 16) (16 - plaintext.length % 16))
          (16 - plaintext.length % 16))
      else Except.error DecryptError.unicodeDecodeError) = Except.ok plaintext
    rw [hslice, if_pos hvalid]
  refine ⟨hcore vTag10 (Or.inl rfl), hcore vTag11 (Or.inr rfl), ?_⟩
  intro s rest hhex
  have htag : (118 :: 57 :: 57 :: rest).take 3 = [118, 57, 57] := rfl
  have hiter : (if (118 :: 57 :: 57 :: rest).take 3 = vTag10
      then (some 1003 : Option Nat)
      else if (118 :: 57 :: 57 :: rest).take 3 = vTag11 then some 1 else none)
      = none := by
    rw [htag]
    rfl
  unfold _decrypt_safe_storage
  rw [hhex]
  dsimp only
  rw [hiter]
  dsimp only
  rw [htag]

/-- A trivial key-derivation instantiation for concrete evaluation of the
parameterized codec. -/
def idKdf : Kdf := fun _ _ _ _ => []

/-- The identity block cipher, a pair satisfying the inverse/length/range
contract, for concrete evaluation of the parameterized codec. -/
def idBlock : BlockFn := fun _ b => b

/-- Witness for `safe_storage_codec_roundtrip` at the identity cipher,
plaintext `[104, 105]` ("hi") and password `[112, 119]` ("pw"). -/
theorem safe_storage_codec_roundtrip_witness :
    _decrypt_safe_storage idKdf idBlock
        (encrypt_for_safe_storage idKdf idBlock [104, 105] [112, 119] vTag10)
        [112, 119]
      = .ok [104, 105]
    ∧ _decrypt_safe_storage idKdf idBlock
        (encrypt_for_safe_storage idKdf idBlock [104, 105] [112, 119] vTag11)
        [112, 119]
      = .ok [104, 105]
    ∧ _decrypt_safe_storage idKdf idBlock
        (hexEncode (118 :: 57 :: 57 :: [0, 1, 2])) [112, 119]
      = .error (.unsupportedVersion [118, 57, 57]) := by
  have h := safe_storage_codec_roundtrip idKdf idBlock idBlock [112, 119]
    [104, 105] (fun _ _ _ => rfl) (fun _ _ hb => hb) (fun _ _ _ hr => hr)
    (by decide) (by decide)
  exact ⟨h.1, h.2.1, h.2.2 _ [0, 1, 2] (hexDecode_hexEncode _ (by decide))⟩

/-- Counterexample to claim C7 as stated: a v10 input whose CBC decryption
ends with the padding-length byte 17 (outside 1–16) does not fail — the code
never validates padding (its error type has no padding failure at all) and
returns the truncated result, here the empty string. -/
theorem no_padding_error_counterexample :
    (cbcDecryptBytes idBlock [] (List.replicate 15 32 ++ [49])).getLast?
      = some 17
    ∧ ¬ (1 ≤ 17 ∧ 17 ≤ 16)
    ∧ _decrypt_safe_storage idKdf idBlock
        (hexEncode (vTag10 ++ (List.replicate 15 32 ++ [49]))) []
      = .ok [] := by
  exact ⟨rfl, by decide, rfl⟩

/-- Claim C7, amended — `_decrypt_safe_storage` performs no PKCS#7
validation: for any v10 input (any KDF/cipher parameters) whose decryption is
nonempty, even when the trailing byte is 0, exceeds 16, or disagrees with the
trailing padding bytes, the call never fails with a padding error — it
computes the Python `decrypted[:-padding_len]` slice (possibly empty or
garbled) and returns it when it is valid UTF-8, failing only with
`UnicodeDecodeError` from the final `decode("utf-8")` otherwise. -/
theorem decrypt_unpad_unvalidated :
    ∀ (kdf : Kdf) (dec : BlockFn) (s : List Char) (pw bs : List Nat) (b : Nat),
      hexDecode s = some (vTag10 ++ bs) →
      bs.length % 16 = 0 →
      (cbcDecryptBytes dec (kdf pw saltBytes 1003 16) bs).getLast? = some b →
      (b = 0 ∨ 16 < b ∨
        ((cbcDecryptBytes dec (kdf pw saltBytes 1003 16) bs).drop
          ((cbcDecryptBytes dec (kdf pw saltBytes 1003 16) bs).length - b)).any
          (fun x => x ≠ b) = true) →
      _decrypt_safe_storage kdf dec s pw
        = if isValidUtf8 (pySliceDropLast
            (cbcDecryptBytes dec (kdf pw saltBytes 1003 16) bs) b) then
          .ok (pySliceDropLast
            (cbcDecryptBytes dec (kdf pw saltBytes 1003 16) bs) b)
        else .error .unicodeDecodeError := by
  intro kdf dec s pw bs b hhex halign hlast _
  rw [decrypt_eval kdf dec s pw bs vTag10 (Or.inl rfl) hhex halign]
  have hiter : (if (vTag10 : List Nat) = vTag10 then (1003 : Nat) else 1)
      = 1003 := rfl
  rw [hiter, hlast]

/-- Witness for `decrypt_unpad_unvalidated`, at the identity cipher: a
16-byte ciphertext decrypting to fifteen zero bytes followed by 17 (the
slice is empty, hence valid UTF-8 and returned), and one decrypting to
fourteen 0xFF bytes followed by 0 and 2 (inconsistent padding; the garbled
slice is not UTF-8, so the call ends in the UnicodeDecodeError branch). -/
theorem decrypt_unpad_unvalidated_witness :
    (_decrypt_safe_storage idKdf idBlock
        (hexEncode (vTag10 ++ (List.replicate 15 32 ++ [49]))) []
      = if isValidUtf8 (pySliceDropLast (cbcDecryptBytes idBlock
            (idKdf [] saltBytes 1003 16) (List.replicate 15 32 ++ [49])) 17) then
          .ok (pySliceDropLast (cbcDecryptBytes idBlock
            (idKdf [] saltBytes 1003 16) (List.replicate 15 32 ++ [49])) 17)
        else .error .unicodeDecodeError)
    ∧ (_decrypt_safe_storage idKdf idBlock
        (hexEncode (vTag10 ++ (List.replicate 14 223 ++ [32, 34]))) []
      = if isValidUtf8 (pySliceDropLast (cbcDecryptBytes idBlock
            (idKdf [] saltBytes 1003 16) (List.replicate 14 223 ++ [32, 34])) 2) then
          .ok (pySliceDropLast (cbcDecryptBytes idBlock
            (idKdf [] saltBytes 1003 16) (List.replicate 14 223 ++ [32, 34])) 2)
        else .error .unicodeDecodeError)
    ∧ _decrypt_safe_storage idKdf idBlock
        (hexEncode (vTag10 ++ (List.replicate 14 223 ++ [32, 34]))) []
      = .error .unicodeDecodeError := by
  refine ⟨decrypt_unpad_unvalidated idKdf idBlock _ []
      (List.replicate 15 32 ++ [49]) 17 (hexDecode_hexEncode _ (by decide))
      (by decide) rfl (by decide),
    decrypt_unpad_unvalidated idKdf idBlock _ []
      (List.replicate 14 223 ++ [32, 34]) 2 (hexDecode_hexEncode _ (by decide))
      (by decide) rfl (by decide), rfl⟩

/-- Claim C8 — KeyVault key shape: every successful
`get_or_create_encryption_key` call returns 64 hexadecimal characters,
whether it returns the existing credential-store entry (which this module
always persists as a 32-byte key, the well-formedness hypothesis on `entry`)
or a freshly generated `secrets.token_hex(32)` key. -/
theorem get_or_create_key_shape :
    ∀ (entry : Option (List Nat)) (fresh : List Nat) (store_ok : Bool)
      (key : List Char),
      (∀ bs, entry = some bs → bs.length = 32 ∧ ∀ x ∈ bs, x < 256) →
      fresh.length = 32 → (∀ x ∈ fresh, x < 256) →
      get_or_create_encryption_key entry fresh store_ok = .ok key →
      key.length = 64 ∧ ∀ ch ∈ key, (hexDigitVal ch).isSome := by
  intro entry fresh store_ok key hentry hflen hfr hok
  unfold get_or_create_encryption_key _get_key_from_keychain
    _generate_encryption_key at hok
  cases entry with
  | some bs =>
    obtain ⟨hlen32, hrange⟩ := hentry bs rfl
    dsimp only [Option.map] at hok
    have hne : (hexEncode bs).isEmpty = false := by
      have hl := hexEncode_length bs
      rw [hlen32] at hl
      cases hE : hexEncode bs with
      | nil =>
        rw [hE] at hl
        simp at hl
      | cons a l => rfl
    rw [hne] at hok
    simp only [Bool.false_eq_true, if_false, Except.ok.injEq] at hok
    subst hok
    exact ⟨by rw [hexEncode_length, hlen32], hexEncode_chars bs hrange⟩
  | none =>
    dsimp only [Option.map] at hok
    cases store_ok with
    | false => cases hok
    | true =>
      simp only [if_true, Except.ok.injEq] at hok
      subst hok
      exact ⟨by rw [hexEncode_length, hflen], hexEncode_chars fresh hfr⟩

/-- Witness for `get_or_create_key_shape`: a stored 32-byte entry yields a
64-hex-character key. -/
theorem get_or_create_key_shape_witness :
    (hexEncode (List.replicate 32 171)).length = 64
    ∧ ∀ ch ∈ hexEncode (List.replicate 32 171), (hexDigitVal ch).isSome := by
  exact get_or_create_key_shape (some (List.replicate 32 171))
    (List.replicate 32 7) true (hexEncode (List.replicate 32 171))
    (fun bs hbs => by
      injection hbs with h
      subst h
      exact ⟨by decide, by decide⟩)
    (by decide) (by decide) rfl

/-! ## Progress-callback ordering of `import_all` (claim C9) -/

/-- Is an event a progress-callback invocation? -/
def isProgressEvent : ImportEvent → Bool
  | .progress _ _ _ => true
  | _ => false

/-- The trace shape of `import_all` stated conversation-by-conversation: for
the conversation at loop index `i`, first the progress event with
`(display_name, i + 1, total)`, then that conversation's processing events,
then the remaining conversations. -/
def importTraceSpec (store : Store) (total i : Nat) :
    List (DesktopConv × List Message) → List ImportEvent
  | [] => []
  | (conv, msgs) :: rest =>
    ImportEvent.progress conv.name (i + 1) total
      :: (processConv store conv msgs).2.1
      ++ importTraceSpec (processConv store conv msgs).1 total (i + 1) rest

theorem importFrom_trace_spec :
    ∀ (data : List (DesktopConv × List Message)) (store : Store) (total i : Nat),
      (importFrom store total i data).2.1 = importTraceSpec store total i data := by
  intro data
  induction data with
  | nil => intro store total i; rfl
  | cons p rest ih =>
    intro store total i
    obtain ⟨conv, msgs⟩ := p
    show ImportEvent.progress conv.name (i + 1) total
        :: (processConv store conv msgs).2.1
        ++ (importFrom (processConv store conv msgs).1 total (i + 1) rest).2.1
      = _
    rw [ih (processConv store conv msgs).1 total (i + 1)]
    rfl

theorem processConv_no_progress (store : Store) (conv : DesktopConv)
    (msgs : List Message) :
    (processConv store conv msgs).2.1.filter isProgressEvent = [] := by
  unfold processConv
  split
  · rfl
  · rfl

theorem importFrom_progress_filter :
    ∀ (data : List (DesktopConv × List Message)) (store : Store) (total i : Nat),
      ((importFrom store total i data).2.1.filter isProgressEvent)
        = (List.enumFrom i data).map
            (fun p => ImportEvent.progress p.2.1.name (p.1 + 1) total) := by
  intro data
  induction data with
  | nil => intro store total i; rfl
  | cons p rest ih =>
    intro store total i
    obtain ⟨conv, msgs⟩ := p
    show ((ImportEvent.progress conv.name (i + 1) total
        :: (processConv store conv msgs).2.1
        ++ (importFrom (processConv store conv msgs).1 total (i + 1) rest).2.1).filter
          isProgressEvent) = _
    simp only [List.filter_cons, List.filter_append, isProgressEvent,
      processConv_no_progress, List.nil_append,
      ih (processConv store conv msgs).1 total (i + 1), List.enumFrom_cons,
      List.map_cons, if_true, List.singleton_append]

/-- Counterexample to claim C9 as stated: on a one-conversation dataset the
progress callback event is the *first* event of the trace, strictly before
the conversation's bulk insert/ensure/aggregation — it is not invoked after
the conversation has been processed. -/
theorem progress_callback_order_counterexample :
    (import_all emptyStore [(⟨"+15550001", "Alice", false⟩, [exMsg1])]).2.1
      = [ImportEvent.progress "Alice" 1 1,
         ImportEvent.bulkInsert "+15550001" 1,
         ImportEvent.ensure "+15550001" "Alice" false,
         ImportEvent.aggregate "+15550001"]
    ∧ (import_all emptyStore [(⟨"+15550001", "Alice", false⟩, [exMsg1])]).2.1.head?
      = some (ImportEvent.progress "Alice" 1 1)
    ∧ ImportEvent.bulkInsert "+15550001" 1
        ∈ (import_all emptyStore
            [(⟨"+15550001", "Alice", false⟩, [exMsg1])]).2.1.drop 1 := by
  exact ⟨rfl, rfl, by decide⟩

/-- Claim C9, amended — during `import_all` the progress callback is invoked
exactly once per conversation, with `(display_name, index, total)` and
1-based index, in the order conversations were enumerated, but *before* that
conversation is processed (the callback runs at the top of the loop body,
ahead of the bulk insert): the full trace equals `importTraceSpec`, the
progress events enumerate the conversations in order, and the first event of
a nonempty import is the first conversation's callback. -/
theorem progress_callback_contract :
    (∀ (store : Store) (data : List (DesktopConv × List Message)),
      (import_all store data).2.1 = importTraceSpec store data.length 0 data)
    ∧ (∀ (store : Store) (data : List (DesktopConv × List Message)),
        ((import_all store data).2.1.filter isProgressEvent)
          = (List.enumFrom 0 data).map
              (fun p => ImportEvent.progress p.2.1.name (p.1 + 1) data.length))
    ∧ (∀ (store : Store) (conv : DesktopConv) (msgs : List Message)
        (rest : List (DesktopConv × List Message)),
        ((import_all store ((conv, msgs) :: rest)).2.1).head?
          = some (ImportEvent.progress conv.name 1 (rest.length + 1))) := by
  refine ⟨?_, ?_, ?_⟩
  · intro store data
    exact importFrom_trace_spec data store data.length 0
  · intro store data
    exact importFrom_progress_filter data store data.length 0
  · intro store conv msgs rest
    rfl

end SignalTui
